import Mathlib

/-!
# C-Fringe-Search: a shallow embedding of `FringeGraph` and `FringeSearch`

The C++ objects are addressed by pointer; here a node or an edge is addressed by a
natural number and a null pointer is `none`.  `edge_weight_t` (a `float` in the source) is
modelled by integers with exact sums, which are the float sums below `2 ^ 24`; the float
sum in general is `fadd`, and `floatGraph` puts the rounding of the cost sum of line 53
into the search.  Dereferencing a null pointer and running out of loop fuel are the two
faults a run can end in.
-/

namespace Fringe

/-- Address of a `BaseFringeNode`. -/
abbrev NodeRef := Nat

/-- Address of a `BaseFringeEdge`. -/
abbrev EdgeRef := Nat

/-- The type `edge_weight_t` of the source, a 32-bit float, for values that are integers:
the order is that of the float values and `+` is the exact sum, which is the float sum
as long as it stays below `2 ^ 24` in absolute value; `fadd` is the float sum in general,
and `floatGraph` carries its rounding into the search. -/
abbrev edge_weight_t := Int

/-- Value of `std::numeric_limits<float>::max()`, which is the integer `2^128 - 2^104`. -/
def FLT_MAX : edge_weight_t := 340282346638528859811704183484516925440

/-- Width of `std::size_t` for the search id counter. -/
def SIZE_MOD : Nat := 2 ^ 64

/-- How a run can go wrong. -/
inductive Fault where
  | nullDeref
  | outOfFuel
  deriving DecidableEq, Repr

/-- The struct `FringeSearchData` of `FringeGraph.h`. -/
structure FringeSearchData where
  previous : Option NodeRef
  g : edge_weight_t
  h : edge_weight_t
  fringeNext : Option NodeRef
  fringePrevious : Option NodeRef
  searchID : Nat
  deriving DecidableEq, Repr

/-- The fields of `BaseFringeEdge`; `from_` and `to_` are null until attached. -/
structure BaseFringeEdge where
  id : Nat
  from_ : Option NodeRef
  to_ : Option NodeRef
  weight : edge_weight_t
  deriving DecidableEq, Repr

/-- The graph fields of `BaseFringeNode`: the adjacency lists hold edge addresses. -/
structure BaseFringeNode where
  id : Nat
  incoming : List EdgeRef
  outgoing : List EdgeRef
  deriving DecidableEq, Repr

/-- What the search reads of a graph: the outgoing edges of a node and the two virtual
policy functions `calculateHeuristic` and `calculateWeight`. -/
structure Graph where
  getOutgoing : NodeRef → List BaseFringeEdge
  calculateHeuristic : NodeRef → NodeRef → edge_weight_t
  calculateWeight : BaseFringeEdge → edge_weight_t → edge_weight_t

/-- The default heuristic: `BaseFringeNode::calculateHeuristic` and
`FringeSearchHeuristic<void>::h` return 0. -/
def defaultHeuristic : NodeRef → NodeRef → edge_weight_t :=
  fun _ _ => 0

/-- The default edge cost: `BaseFringeEdge::calculateWeight` and
`FringeEdgeWeightCalculation<void>::weight` return the edge's static weight. -/
def defaultWeight : BaseFringeEdge → edge_weight_t → edge_weight_t :=
  fun edge _ => edge.weight

/-- A graph with the default policies, the sums of line 53 being exact. -/
def defaultGraph (out : NodeRef → List BaseFringeEdge) : Graph :=
  { getOutgoing := out, calculateHeuristic := defaultHeuristic, calculateWeight := defaultWeight }

/-- The class `FringeSearch` together with the `fringeSearchData` slot of every node. -/
structure FringeSearch where
  searchID : Nat
  fringeStart : Option NodeRef
  fringeEnd : Option NodeRef
  start : NodeRef
  data : NodeRef → Option FringeSearchData

/-- Overwrite the search data slot of one node. -/
def FringeSearch.setData (s : FringeSearch) (node : NodeRef) (d : FringeSearchData) :
    FringeSearch :=
  { s with data := fun m => if m = node then some d else s.data m }

/-- The method `FringeSearch::allocateSearchData`. -/
def allocateSearchData (s : FringeSearch) (node : NodeRef) : FringeSearch :=
  s.setData node
    { previous := none, g := 0, h := -1, fringeNext := none, fringePrevious := none,
      searchID := s.searchID }

/-- The method `FringeSearch::setStartingNode`. -/
def setStartingNode (s : FringeSearch) (start : NodeRef) : FringeSearch :=
  allocateSearchData { s with start := start, fringeStart := some start, fringeEnd := some start }
    start

/-- The constructor `FringeSearch::FringeSearch(BaseFringeNode*)`: it only calls
`setStartingNode`, so `searchID` keeps the indeterminate value `uninit`. -/
def FringeSearch.bound (uninit : Nat) (data : NodeRef → Option FringeSearchData)
    (start : NodeRef) : FringeSearch :=
  setStartingNode
    { searchID := uninit, fringeStart := none, fringeEnd := none, start := start, data := data }
    start

/-- The method `FringeSearch::reset`, with the static counter `nextSearchID` passed in and
its new value returned. -/
def reset (s : FringeSearch) (nextSearchID : Nat) (start : NodeRef) : FringeSearch × Nat :=
  (setStartingNode { s with searchID := nextSearchID } start, (nextSearchID + 1) % SIZE_MOD)

/-- Dereference of a pointer that may be null. -/
def deref {α : Type} : Option α → Except Fault α
  | none => .error .nullDeref
  | some a => .ok a

/-- The access `node->fringeSearchData->...`: a fault when the slot is null. -/
def FringeSearch.get (s : FringeSearch) (node : NodeRef) : Except Fault FringeSearchData :=
  deref (s.data node)

/-- First `if` / `else if` of `FringeSearch::removeFromFringe`: the link that led to `node`
(the head pointer or the `fringeNext` of its predecessor in the list) now skips it. -/
def unlinkBefore (s : FringeSearch) (node : NodeRef) : Except Fault FringeSearch := do
  let nodeData ← s.get node
  if some node = s.fringeStart then
    pure { s with fringeStart := nodeData.fringeNext }
  else
    match nodeData.fringePrevious with
    | none => pure s
    | some p => do
      let previousData ← s.get p
      pure (s.setData p { previousData with fringeNext := nodeData.fringeNext })

/-- Second `if` / `else if` of `FringeSearch::removeFromFringe`: the link that led back to
`node` (the tail pointer or the `fringePrevious` of its successor) now skips it. -/
def unlinkAfter (s : FringeSearch) (node : NodeRef) : Except Fault FringeSearch := do
  let nodeData ← s.get node
  if some node = s.fringeEnd then
    pure { s with fringeEnd := nodeData.fringePrevious }
  else
    match nodeData.fringeNext with
    | none => pure s
    | some n => do
      let nextData ← s.get n
      pure (s.setData n { nextData with fringePrevious := nodeData.fringePrevious })

/-- The method `FringeSearch::removeFromFringe`.  Every field is read from the heap at the
point where the source dereferences it. -/
def removeFromFringe (s : FringeSearch) (node : NodeRef) : Except Fault FringeSearch := do
  let s1 ← unlinkBefore s node
  unlinkAfter s1 node

/-- The method `FringeSearch::cost`: no check of any kind, a node without search data is a
null dereference. -/
def cost (s : FringeSearch) (node : NodeRef) : Except Fault edge_weight_t := do
  let endData ← s.get node
  pure endData.g

/-- Lines 57 to 68 of `FringeSearch.cpp`: `none` stands for `continue` (the child is
skipped), otherwise the state in which the child has search data of this search. -/
def considerChild (s : FringeSearch) (child : NodeRef) (g : edge_weight_t) :
    Option FringeSearch :=
  match s.data child with
  | some childData =>
    if childData.searchID = s.searchID then
      if g > childData.g then none else some s
    else some (allocateSearchData s child)
  | none => some (allocateSearchData s child)

/-- Lines 75 to 78 of `FringeSearch.cpp`: when the fringe has a last node, its `fringeNext`
is pointed at the child. -/
def linkAfterEnd (s : FringeSearch) (child : NodeRef) : Except Fault FringeSearch :=
  match s.fringeEnd with
  | none => pure s
  | some fe => do
    let fringeEndData ← s.get fe
    pure (s.setData fe { fringeEndData with fringeNext := some child })

/-- Lines 75 to 81 of `FringeSearch.cpp`: the child becomes the last node of the fringe.
The head pointer `fringeStart` is not touched. -/
def appendToFringe (s : FringeSearch) (child : NodeRef) : Except Fault FringeSearch := do
  let s1 ← linkAfterEnd s child
  let childData ← s1.get child
  pure
    { s1.setData child { childData with fringePrevious := s1.fringeEnd, fringeNext := none } with
      fringeEnd := some child }

/-- One iteration of the `for` loop over the outgoing edges in `FringeSearch::search`.  The
sum of line 53 is taken exactly; with the cost term of `floatGraph` it is the float sum. -/
def expandEdge (G : Graph) (s : FringeSearch) (current : NodeRef) (edge : BaseFringeEdge) :
    Except Fault FringeSearch := do
  let currentData ← s.get current
  let g := currentData.g + G.calculateWeight edge currentData.g
  let child ← deref edge.to_
  match considerChild s child g with
  | none => pure s
  | some s1 => do
    let childData ← s1.get child
    let s2 := s1.setData child { childData with previous := some current, g := g }
    let s3 ← removeFromFringe s2 child
    appendToFringe s3 child

/-- The whole `for` loop over `current->getOutgoing()`. -/
def expandChildren (G : Graph) (current : NodeRef) :
    FringeSearch → List BaseFringeEdge → Except Fault FringeSearch
  | s, [] => pure s
  | s, edge :: rest => do
    let s1 ← expandEdge G s current edge
    expandChildren G current s1 rest

/-- Outcome of one iteration of the inner `while (current != nullptr)` loop. -/
inductive ScanStep where
  | found (s : FringeSearch)
  | next (s : FringeSearch) (next : Option NodeRef) (minF : edge_weight_t)

/-- Lines 28 to 36 of `FringeSearch.cpp`: the cached or freshly computed heuristic of
`current` is stored, and `f = g + h` is returned. -/
def evaluate (G : Graph) (target : NodeRef) (s : FringeSearch) (current : NodeRef) :
    Except Fault (edge_weight_t × FringeSearch) := do
  let currentData ← s.get current
  if currentData.h ≥ 0 then
    pure (currentData.g + currentData.h, s)
  else
    let h := G.calculateHeuristic current target
    pure (currentData.g + h, s.setData current { currentData with h := h })

/-- Lines 52 to 89 of `FringeSearch.cpp`: expand the children of `current`, read its
successor in the fringe, erase it from the fringe.  Returns the successor read. -/
def expandCurrent (G : Graph) (s : FringeSearch) (current : NodeRef) :
    Except Fault (Option NodeRef × FringeSearch) := do
  let s1 ← expandChildren G current s (G.getOutgoing current)
  let currentData ← s1.get current
  let next := currentData.fringeNext
  let s2 ← removeFromFringe s1 current
  let currentData ← s2.get current
  pure (next, s2.setData current { currentData with fringeNext := none, fringePrevious := none })

/-- Body of the inner `while` loop of `FringeSearch::search` for the node `current`. -/
def scanNode (G : Graph) (target : NodeRef) (limit : edge_weight_t) (s : FringeSearch)
    (current : NodeRef) (minF : edge_weight_t) : Except Fault ScanStep := do
  let (f, s0) ← evaluate G target s current
  if f > limit then
    let currentData ← s0.get current
    pure (.next s0 currentData.fringeNext (if f < minF then f else minF))
  else if current = target then
    pure (.found s0)
  else
    let (next, s1) ← expandCurrent G s0 current
    pure (.next s1 next minF)

/-- The inner `while (current != nullptr)` loop: one pass over the fringe.  Returns whether
the target was found, the final `minF` and the state. -/
def scanPass (G : Graph) (target : NodeRef) (limit : edge_weight_t) :
    Nat → FringeSearch → Option NodeRef → edge_weight_t →
      Except Fault (Bool × edge_weight_t × FringeSearch)
  | _, s, none, minF => pure (false, minF, s)
  | 0, _, some _, _ => .error .outOfFuel
  | fuel + 1, s, some current, minF => do
    match ← scanNode G target limit s current minF with
    | .found s1 => pure (true, minF, s1)
    | .next s1 next minF1 => scanPass G target limit fuel s1 next minF1

/-- The outer `while (!found && fringeStart != nullptr)` loop. -/
def searchLoop (G : Graph) (target : NodeRef) :
    Nat → edge_weight_t → FringeSearch → Except Fault (Bool × FringeSearch)
  | 0, _, s =>
    match s.fringeStart with
    | none => pure (false, s)
    | some _ => .error .outOfFuel
  | fuel + 1, limit, s =>
    match s.fringeStart with
    | none => pure (false, s)
    | some _ => do
      let (found, minF, s1) ← scanPass G target limit fuel s s.fringeStart FLT_MAX
      if found then pure (true, s1) else searchLoop G target fuel minF s1

/-- The path reconstruction loop `while (current != start)` at the end of
`FringeSearch::search`: `push_back` makes the target the first element. -/
def reconstruct (s : FringeSearch) : Nat → Option NodeRef → Except Fault (List NodeRef)
  | _, none => .error .nullDeref
  | 0, some current => if current = s.start then pure [] else .error .outOfFuel
  | fuel + 1, some current =>
    if current = s.start then pure []
    else do
      let currentData ← s.get current
      let rest ← reconstruct s fuel currentData.previous
      pure (current :: rest)

/-- The method `FringeSearch::search`: the result is the returned vector (`none` for
`nullptr`) and the state the call leaves behind. -/
def search (fuel : Nat) (G : Graph) (s : FringeSearch) (target : NodeRef) :
    Except Fault (Option (List NodeRef) × FringeSearch) := do
  let (found, s1) ← searchLoop G target fuel (G.calculateHeuristic s.start target) s
  if found then
    let result ← reconstruct s1 fuel (some target)
    pure (some result, s1)
  else
    pure (none, s1)

/-- The vector a call to `search` returns, without the state. -/
def searchResult (fuel : Nat) (G : Graph) (s : FringeSearch) (target : NodeRef) :
    Except Fault (Option (List NodeRef)) :=
  (search fuel G s target).map (fun r => r.1)

/-- The value of `cost(node)` called right after `search(target)`. -/
def costAfterSearch (fuel : Nat) (G : Graph) (s : FringeSearch) (target node : NodeRef) :
    Except Fault edge_weight_t :=
  search fuel G s target >>= fun r => cost r.2 node

/-- The predecessor link `node->fringeSearchData->previous`. -/
def predecessor (s : FringeSearch) (node : NodeRef) : Option NodeRef :=
  match s.data node with
  | none => none
  | some d => d.previous

/-- Builds the outgoing lists of a graph from triples (source, target, weight), in the order
in which the edges are created. -/
def edgesOf (l : List (NodeRef × NodeRef × edge_weight_t)) : NodeRef → List BaseFringeEdge :=
  fun n =>
    (l.filter (fun e => e.1 = n)).map
      (fun e => { id := 0, from_ := some e.1, to_ := some e.2.1, weight := e.2.2 })

/-- No node has search data yet. -/
def noData : NodeRef → Option FringeSearchData :=
  fun _ => none

/-- The scenario of the specification: A = 0, B = 1, C = 2, D = 3 with the edges
A→B (1), A→C (4), B→C (1), C→D (1), B→D (5). -/
def scenarioGraph : Graph :=
  defaultGraph (edgesOf [(0, 1, 1), (0, 2, 4), (1, 2, 1), (2, 3, 1), (1, 3, 5)])

deriving instance DecidableEq for Except

/-- Two states of one binding of the engine: same start node and same search id. -/
def SameBinding (s s1 : FringeSearch) : Prop :=
  s1.start = s.start ∧ s1.searchID = s.searchID

/-- The state a call to `search` leaves behind (the state before the call if it faults). -/
def stateAfter (fuel : Nat) (G : Graph) (s : FringeSearch) (target : NodeRef) : FringeSearch :=
  match search fuel G s target with
  | .error _ => s
  | .ok r => r.2

/-- The generation tag stored in the search data of a node, if it has any. -/
def tagOf (s : FringeSearch) (node : NodeRef) : Option Nat :=
  match s.data node with
  | none => none
  | some d => some d.searchID

/-- A graph with the one edge 0 → 1 of weight 1 and a third node 2. -/
def oneEdgeGraph : Graph :=
  defaultGraph (edgesOf [(0, 1, 1)])

/-- A zero-weight cycle 0 → 1 → 0; node 2 has no edge at all. -/
def zeroCycleGraph : Graph :=
  defaultGraph (edgesOf [(0, 1, 0), (1, 0, 0)])

/-- Search data of a node on the zero-weight cycle once both nodes have been expanded. -/
def cycleData (p : NodeRef) : FringeSearchData :=
  { previous := some p, g := 0, h := 0, fringeNext := none, fringePrevious := none,
    searchID := 0 }

/-- The state in which the search on `zeroCycleGraph` finds itself again and again: the
fringe is the single node `c`. -/
def cycleState (c : NodeRef) : FringeSearch :=
  { searchID := 0, fringeStart := some c, fringeEnd := some c, start := 0,
    data := fun m => if m = 0 then some (cycleData 1) else if m = 1 then some (cycleData 0) else none }

/-- The graph has an edge from `a` to `b`. -/
def HasEdge (G : Graph) (a b : NodeRef) : Prop :=
  ∃ e ∈ G.getOutgoing a, e.to_ = some b

/-- There is a directed path (possibly empty) from `a` to `b`. -/
def Reachable (G : Graph) : NodeRef → NodeRef → Prop :=
  Relation.ReflTransGen (HasEdge G)

/-- The state in which the scan loops of `search` end (the state before the call if they
fault); the reconstruction of the path does not change the state. -/
def loopState (fuel : Nat) (G : Graph) (s : FringeSearch) (target : NodeRef) : FringeSearch :=
  match searchLoop G target fuel (G.calculateHeuristic s.start target) s with
  | .error _ => s
  | .ok r => r.2

/-- Whether the scan loops of `search` end with `found` set. -/
def loopFound (fuel : Nat) (G : Graph) (s : FringeSearch) (target : NodeRef) :
    Except Fault Bool :=
  (searchLoop G target fuel (G.calculateHeuristic s.start target) s).map (fun r => r.1)

/-- Nodes 0 → 1 → 2 with weights 1 and a zero-weight loop at node 1, listed after the edge
to node 2. -/
def selfLoopGraph : Graph :=
  defaultGraph (edgesOf [(0, 1, 1), (1, 2, 1), (1, 1, 0)])

/-- The edges `es`, taken in this order, lead from `a` to `b`. -/
def IsWalk (G : Graph) : NodeRef → List BaseFringeEdge → NodeRef → Prop
  | a, [], b => a = b
  | a, e :: es, b => e ∈ G.getOutgoing a ∧ ∃ c, e.to_ = some c ∧ IsWalk G c es b

/-- Total static weight of a list of edges. -/
def walkWeight (es : List BaseFringeEdge) : edge_weight_t :=
  (es.map (fun e => e.weight)).sum

/-- Every edge of the graph has a non-negative weight. -/
def NonNegWeights (G : Graph) : Prop :=
  ∀ n, ∀ e ∈ G.getOutgoing n, 0 ≤ e.weight

/-- Node 0 has a zero-weight loop, created before its edge to node 1. -/
def startLoopGraph : Graph :=
  defaultGraph (edgesOf [(0, 0, 0), (0, 1, 1)])

/-- Start 0, target 3: the direct edge 0 → 3 costs 10, the route 0 → 2 → 3 costs 2, and
node 1 has a zero-weight loop. -/
def detourGraph : Graph :=
  defaultGraph (edgesOf [(0, 1, 1), (0, 3, 10), (0, 2, 1), (2, 3, 1), (1, 1, 0)])

/-- Two sources 0 and 2 of the node 1: 0 → 1 costs 1 and 2 → 1 costs 5. -/
def twoSourcesGraph : Graph :=
  defaultGraph (edgesOf [(0, 1, 1), (2, 1, 5)])

/-- The nodes and edges allocated so far; the address of an object is its index. -/
structure GraphStore where
  nodes : List BaseFringeNode
  edges : List BaseFringeEdge
  deriving DecidableEq, Repr

/-- No node and no edge. -/
def GraphStore.empty : GraphStore :=
  { nodes := [], edges := [] }

/-- The constructor `BaseFringeNode::BaseFringeNode(id)`, with the address of the node. -/
def newNode (st : GraphStore) (id : Nat) : GraphStore × NodeRef :=
  ({ st with nodes := st.nodes ++ [{ id := id, incoming := [], outgoing := [] }] },
    st.nodes.length)

/-- The method `BaseFringeNode::getOutgoing` (empty for an address that is not a node). -/
def getOutgoing (st : GraphStore) (node : NodeRef) : List EdgeRef :=
  match st.nodes[node]? with
  | none => []
  | some nd => nd.outgoing

/-- The method `BaseFringeNode::getIncoming` (empty for an address that is not a node). -/
def getIncoming (st : GraphStore) (node : NodeRef) : List EdgeRef :=
  match st.nodes[node]? with
  | none => []
  | some nd => nd.incoming

/-- The method `BaseFringeNode::addOutgoing`: `outgoing.push_back(edge)`. -/
def addOutgoing (st : GraphStore) (node : NodeRef) (edge : EdgeRef) : Except Fault GraphStore := do
  let nd ← deref st.nodes[node]?
  pure { st with nodes := st.nodes.set node { nd with outgoing := nd.outgoing ++ [edge] } }

/-- The method `BaseFringeNode::addIncoming`: `incoming.push_back(edge)`. -/
def addIncoming (st : GraphStore) (node : NodeRef) (edge : EdgeRef) : Except Fault GraphStore := do
  let nd ← deref st.nodes[node]?
  pure { st with nodes := st.nodes.set node { nd with incoming := nd.incoming ++ [edge] } }

/-- The constructor `BaseFringeEdge::BaseFringeEdge(id)`: no endpoints, and a weight that is
not initialised. -/
def newEdge (st : GraphStore) (id : Nat) (uninitWeight : edge_weight_t) : GraphStore × EdgeRef :=
  ({ st with edges := st.edges ++ [{ id := id, from_ := none, to_ := none, weight := uninitWeight }] },
    st.edges.length)

/-- The constructor `BaseFringeEdge::BaseFringeEdge(id, from, to, weight)`. -/
def newEdgeBetween (st : GraphStore) (id : Nat) (source target : NodeRef)
    (weight : edge_weight_t) : Except Fault (GraphStore × EdgeRef) := do
  let edge := st.edges.length
  let st1 : GraphStore :=
    { st with
      edges := st.edges ++ [{ id := id, from_ := some source, to_ := some target, weight := weight }] }
  let st2 ← addOutgoing st1 source edge
  let st3 ← addIncoming st2 target edge
  pure (st3, edge)

/-- The method `BaseFringeEdge::setFrom`: `from = node; node->addOutgoing(this)`. -/
def setFrom (st : GraphStore) (edge : EdgeRef) (node : NodeRef) : Except Fault GraphStore := do
  let ed ← deref st.edges[edge]?
  addOutgoing { st with edges := st.edges.set edge { ed with from_ := some node } } node edge

/-- The method `BaseFringeEdge::setTo`: `to = node; node->addIncoming(this)`. -/
def setTo (st : GraphStore) (edge : EdgeRef) (node : NodeRef) : Except Fault GraphStore := do
  let ed ← deref st.edges[edge]?
  addIncoming { st with edges := st.edges.set edge { ed with to_ := some node } } node edge

/-- The method `BaseFringeEdge::getFrom`. -/
def getFrom (st : GraphStore) (edge : EdgeRef) : Option NodeRef :=
  match st.edges[edge]? with
  | none => none
  | some ed => ed.from_

/-- The method `BaseFringeEdge::getTo`. -/
def getTo (st : GraphStore) (edge : EdgeRef) : Option NodeRef :=
  match st.edges[edge]? with
  | none => none
  | some ed => ed.to_

/-- What the search sees of a store: edge objects instead of addresses, default policies. -/
def GraphStore.toGraph (st : GraphStore) : Graph :=
  defaultGraph (fun n => (getOutgoing st n).filterMap (fun e => st.edges[e]?))

/-- A call that builds or rewires the graph. -/
inductive GraphOp where
  | newNode (id : Nat)
  | newEdge (id : Nat) (uninitWeight : edge_weight_t)
  | newEdgeBetween (id : Nat) (source target : NodeRef) (weight : edge_weight_t)
  | setFrom (edge : EdgeRef) (node : NodeRef)
  | setTo (edge : EdgeRef) (node : NodeRef)
  deriving DecidableEq, Repr

/-- Effect of one call on the store. -/
def applyOp (st : GraphStore) : GraphOp → Except Fault GraphStore
  | .newNode id => pure (newNode st id).1
  | .newEdge id w => pure (newEdge st id w).1
  | .newEdgeBetween id source target weight => do
    let r ← newEdgeBetween st id source target weight
    pure r.1
  | .setFrom edge node => setFrom st edge node
  | .setTo edge node => setTo st edge node

/-- Effect of a sequence of calls. -/
def run : GraphStore → List GraphOp → Except Fault GraphStore
  | st, [] => pure st
  | st, op :: ops => do
    let st1 ← applyOp st op
    run st1 ops

/-- The attachments (edge, node) that a sequence of calls makes on the source side, in call
order; `k` is the number of edges allocated before the first call. -/
def sourceEvents : Nat → List GraphOp → List (EdgeRef × NodeRef)
  | _, [] => []
  | k, .newNode _ :: ops => sourceEvents k ops
  | k, .newEdge _ _ :: ops => sourceEvents (k + 1) ops
  | k, .newEdgeBetween _ source _ _ :: ops => (k, source) :: sourceEvents (k + 1) ops
  | k, .setFrom edge node :: ops => (edge, node) :: sourceEvents k ops
  | k, .setTo _ _ :: ops => sourceEvents k ops

/-- The attachments (edge, node) that a sequence of calls makes on the target side. -/
def targetEvents : Nat → List GraphOp → List (EdgeRef × NodeRef)
  | _, [] => []
  | k, .newNode _ :: ops => targetEvents k ops
  | k, .newEdge _ _ :: ops => targetEvents (k + 1) ops
  | k, .newEdgeBetween _ _ target _ :: ops => (k, target) :: targetEvents (k + 1) ops
  | k, .setFrom _ _ :: ops => targetEvents k ops
  | k, .setTo edge node :: ops => (edge, node) :: targetEvents k ops

/-- The edges attached to `node` by a list of attachments, in order and with repetitions. -/
def attachedTo (events : List (EdgeRef × NodeRef)) (node : NodeRef) : List EdgeRef :=
  events.filterMap (fun p => if p.2 = node then some p.1 else none)

/-- Three nodes, an edge from node 0 to node 1, then `setFrom` moves its source to node 2. -/
def rewireOps : List GraphOp :=
  [.newNode 0, .newNode 1, .newNode 2, .newEdgeBetween 0 0 1 1, .setFrom 0 2]

/-- The store that `rewireOps` builds. -/
def rewiredStore : GraphStore :=
  { nodes :=
      [{ id := 0, incoming := [], outgoing := [0] }, { id := 1, incoming := [0], outgoing := [] },
       { id := 2, incoming := [], outgoing := [0] }],
    edges := [{ id := 0, from_ := some 2, to_ := some 1, weight := 1 }] }

/-- The fringe of `s` is the doubly linked list `L`: `fringeStart` and `fringeEnd` are its
first and last node, the node at position `i` carries data of the current search whose
`fringeNext` and `fringePrevious` are the nodes at positions `i + 1` and `i - 1`, and every
node with data of the current search outside `L`, the node `ex` apart, has both links null. -/
def FringeIsBut (s : FringeSearch) (L : List NodeRef) (ex : Option NodeRef) : Prop :=
  L.Nodup ∧ s.fringeStart = L.head? ∧ s.fringeEnd = L.getLast? ∧
    (∀ i x, L[i]? = some x →
      ∃ d, s.data x = some d ∧ d.searchID = s.searchID ∧ d.fringeNext = L[i + 1]? ∧
        d.fringePrevious = if i = 0 then none else L[i - 1]?) ∧
    (∀ x d, s.data x = some d → d.searchID = s.searchID → x ∉ L → some x ≠ ex →
      d.fringeNext = none ∧ d.fringePrevious = none)

/-- The fringe of `s` is the well-formed doubly linked list `L`. -/
def FringeIs (s : FringeSearch) (L : List NodeRef) : Prop :=
  FringeIsBut s L none

/-- The two states agree, node by node, on what `view` shows of the search data. -/
def Agree {α : Type} (view : FringeSearchData → α) (s s1 : FringeSearch) : Prop :=
  ∀ n, (s1.data n).map view = (s.data n).map view

/-- The search data without the two fringe links. -/
def payload (d : FringeSearchData) : Option NodeRef × edge_weight_t × edge_weight_t × Nat :=
  (d.previous, d.g, d.h, d.searchID)

/-- The cost `g` stored for a node (0 when the node has no search data). -/
def gOf (s : FringeSearch) (node : NodeRef) : edge_weight_t :=
  match s.data node with
  | none => 0
  | some d => d.g

/-- The integer that stands for the value +infinity of the 32-bit float type: the least
power of two above `FLT_MAX`. -/
def FLT_INF : edge_weight_t :=
  340282366920938463463374607431768211456

/-- The number of low bits that rounding to 24 significant bits drops from `m`. -/
def dropBits : Nat → Nat → Nat
  | 0, _ => 0
  | fuel + 1, m => if m < 2 ^ 24 then 0 else dropBits fuel (m / 2) + 1

/-- Rounding of an integer to the 32-bit float type of `edge_weight_t`: the nearest value
with 24 significant bits, the even significand on a tie, and `FLT_INF` from
`2 ^ 128 - 2 ^ 103` on.  Integers below `2 ^ 24` in absolute value are float values. -/
def roundFloat (x : Int) : Int :=
  let m := x.natAbs
  let e := dropBits 128 m
  let q := m / 2 ^ e
  let r := m % 2 ^ e
  let q1 := if 2 ^ e < 2 * r ∨ (2 * r = 2 ^ e ∧ q % 2 = 1) then q + 1 else q
  let y := if q1 * 2 ^ e < 2 ^ 128 then q1 * 2 ^ e else 2 ^ 128
  if x < 0 then -(y : Int) else (y : Int)

/-- The sum `a + b` as the source computes it at lines 36 and 53 of `FringeSearch.cpp`, in
the 32-bit float type, for values that are integers or infinite (the value NaN is not
modelled). -/
def fadd (a b : edge_weight_t) : edge_weight_t :=
  if FLT_INF ≤ a ∨ FLT_INF ≤ b then FLT_INF
  else if a ≤ -FLT_INF ∨ b ≤ -FLT_INF then -FLT_INF
  else roundFloat (a + b)

/-- The default edge cost together with the rounding of line 53: the source stores the
float sum of `costToFrom` and the weight that the default policy returns; `expandEdge`
adds exactly, so the cost term here is the difference between that float sum and
`costToFrom`, and adding it to `costToFrom` gives the float sum. -/
def floatWeight : BaseFringeEdge → edge_weight_t → edge_weight_t :=
  fun edge costToFrom => fadd costToFrom edge.weight - costToFrom

/-- A graph with the default policies in which the cost stored at line 53 is the float sum
that the source computes (the sum of line 36 adds the heuristic 0 and is exact); where the
float sums are exact it behaves as `defaultGraph`. -/
def floatGraph (out : NodeRef → List BaseFringeEdge) : Graph :=
  { getOutgoing := out, calculateHeuristic := defaultHeuristic, calculateWeight := floatWeight }

/-- The method `BaseFringeEdge::getWeight`. -/
def getWeight (st : GraphStore) (edge : EdgeRef) : Option edge_weight_t :=
  match st.edges[edge]? with
  | none => none
  | some ed => some ed.weight

/-- The loop of `BaseFringeNode::getIncident` over the outgoing edges that are left. -/
def findIncident (st : GraphStore) (other : NodeRef) :
    List EdgeRef → Except Fault (Option EdgeRef)
  | [] => pure none
  | edge :: rest => do
    let ed ← deref st.edges[edge]?
    if ed.to_ = some other then pure (some edge) else findIncident st other rest

/-- The method `BaseFringeNode::getIncident`: the edge found (`none` for `nullptr`) and the
store after the call. -/
def getIncident (st : GraphStore) (node other : NodeRef) :
    Except Fault (Option EdgeRef × GraphStore) := do
  let nd ← deref st.nodes[node]?
  let found ← findIncident st other nd.outgoing
  pure (found, st)

/-- The value `f = g + h` that line 36 of `FringeSearch.cpp` computes for a node. -/
def fValue (G : Graph) (target : NodeRef) (s : FringeSearch) (node : NodeRef) :
    Except Fault edge_weight_t :=
  (evaluate G target s node).map (fun r => r.1)

/-- The state after one iteration of the loop over the outgoing edges of `current` (the
state before it if the iteration faults). -/
def afterEdge (G : Graph) (s : FringeSearch) (current : NodeRef) (edge : BaseFringeEdge) :
    FringeSearch :=
  match expandEdge G s current edge with
  | .error _ => s
  | .ok s1 => s1

/-- The state after lines 52 to 89 of `FringeSearch.cpp` for `current` (the state before
them if they fault). -/
def afterExpand (G : Graph) (s : FringeSearch) (current : NodeRef) : FringeSearch :=
  match expandCurrent G s current with
  | .error _ => s
  | .ok r => r.2

/-- The node with which the scan goes on after `current` was expanded. -/
def nextAfterExpand (G : Graph) (s : FringeSearch) (current : NodeRef) : Option NodeRef :=
  match expandCurrent G s current with
  | .error _ => none
  | .ok r => r.1

/-- The edge object with the given endpoints and weight, as `edgesOf` builds it. -/
def edgeOf (source target : NodeRef) (weight : edge_weight_t) : BaseFringeEdge :=
  { id := 0, from_ := some source, to_ := some target, weight := weight }

/-- Node 0 with an edge to node 1 and an edge to node 2, both of weight 1. -/
def fanGraph : Graph :=
  defaultGraph (edgesOf [(0, 1, 1), (0, 2, 1)])

/-- The state of a search from node 0 in `fanGraph` when both children of node 0 have been
appended and node 0 is not yet erased: the fringe is 0, 1, 2. -/
def fanState : FringeSearch :=
  afterEdge fanGraph (afterEdge fanGraph (FringeSearch.bound 0 noData 0) 0 (edgeOf 0 1 1)) 0
    (edgeOf 0 2 1)

/-- Two routes of the same cost 2 from node 0 to node 3, one through node 1 and one through
node 2. -/
def diamondGraph : Graph :=
  defaultGraph (edgesOf [(0, 1, 1), (0, 2, 1), (1, 3, 1), (2, 3, 1)])

/-- The state of a search from node 0 in `diamondGraph` after nodes 0 and 1 were expanded:
the fringe is 2, 3 and node 3 was reached through node 1 at cost 2. -/
def tieState : FringeSearch :=
  afterExpand diamondGraph (afterExpand diamondGraph (FringeSearch.bound 0 noData 0) 0) 1

/-- Start 0 with edges to node 1 (weight 1), node 2 (weight 10) and node 3 (weight 1), created
in this order; node 2 leads on to node 4 and node 3 leads to node 2, each at weight 1; node 1
has a loop of weight 0. -/
def staleCostGraph : Graph :=
  defaultGraph (edgesOf [(0, 1, 1), (0, 2, 10), (0, 3, 1), (2, 4, 1), (3, 2, 1), (1, 1, 0)])

/-! ## Theorems -/

theorem bind_eq_ok {α β : Type} {x : Except Fault α} {f : α → Except Fault β} {b : β} :
    (x >>= f) = .ok b ↔ ∃ a, x = .ok a ∧ f a = .ok b := by
  cases x with
  | error e => simp [bind, Except.bind]
  | ok a => simp [bind, Except.bind]

theorem get_eq_ok {s : FringeSearch} {node : NodeRef} {d : FringeSearchData} :
    s.get node = .ok d ↔ s.data node = some d := by
  unfold FringeSearch.get deref
  cases s.data node <;> simp

theorem deref_eq_ok {α : Type} {o : Option α} {a : α} : deref o = .ok a ↔ o = some a := by
  unfold deref
  cases o <;> simp

theorem setStartingNode_data_start (s : FringeSearch) (start : NodeRef) :
    (setStartingNode s start).data start =
      some { previous := none, g := 0, h := -1, fringeNext := none, fringePrevious := none,
             searchID := s.searchID } := by
  simp [setStartingNode, allocateSearchData, FringeSearch.setData]

theorem reconstruct_spec (s : FringeSearch) :
    ∀ (fuel : Nat) (current : NodeRef) (path : List NodeRef),
      reconstruct s fuel (some current) = .ok path →
        List.Chain' (fun a b => predecessor s a = some b) (path ++ [s.start]) ∧
        s.start ∉ path ∧ (current ≠ s.start → path.head? = some current) ∧
        (current = s.start → path = []) := by
  intro fuel
  induction fuel with
  | zero =>
    intro current path h
    by_cases hc : current = s.start
    · simp [reconstruct, hc, pure, Except.pure] at h
      subst h
      simp [hc]
    · simp [reconstruct, hc] at h
  | succ fuel ih =>
    intro current path h
    by_cases hc : current = s.start
    · simp [reconstruct, hc, pure, Except.pure] at h
      subst h
      simp [hc]
    · simp only [reconstruct, hc, if_false] at h
      obtain ⟨d, hd, h⟩ := bind_eq_ok.1 h
      obtain ⟨rest, hr, h⟩ := bind_eq_ok.1 h
      rw [get_eq_ok] at hd
      simp only [pure, Except.pure, Except.ok.injEq] at h
      subst h
      cases hp : d.previous with
      | none => simp [hp, reconstruct] at hr
      | some p =>
        rw [hp] at hr
        obtain ⟨hch, hns, hhd, hnil⟩ := ih p rest hr
        refine ⟨?_, ?_, ?_, ?_⟩
        · rw [List.cons_append, List.chain'_cons']
          refine ⟨?_, hch⟩
          intro y hy
          by_cases hps : p = s.start
          · rw [hnil hps] at hy
            simp at hy
            subst hy
            simp [predecessor, hd, hp, hps]
          · have := hhd hps
            cases rest with
            | nil => simp at this
            | cons r rs =>
              simp at this hy
              subst this; subst hy
              simp [predecessor, hd, hp]
        · simp [hns, Ne.symm hc]
        · intro _; rfl
        · intro h; exact absurd h hc




theorem SameBinding.refl (s : FringeSearch) : SameBinding s s := ⟨rfl, rfl⟩

theorem SameBinding.trans {a b c : FringeSearch} (h1 : SameBinding a b) (h2 : SameBinding b c) :
    SameBinding a c := ⟨h2.1.trans h1.1, h2.2.trans h1.2⟩

theorem unlinkBefore_sameBinding {s s1 : FringeSearch} {node : NodeRef}
    (h : unlinkBefore s node = .ok s1) : SameBinding s s1 := by
  unfold unlinkBefore at h
  obtain ⟨d, -, h⟩ := bind_eq_ok.1 h
  split at h
  · cases h; exact ⟨rfl, rfl⟩
  · split at h
    · cases h; exact ⟨rfl, rfl⟩
    · obtain ⟨pd, -, h⟩ := bind_eq_ok.1 h
      cases h; exact ⟨rfl, rfl⟩

theorem unlinkAfter_sameBinding {s s1 : FringeSearch} {node : NodeRef}
    (h : unlinkAfter s node = .ok s1) : SameBinding s s1 := by
  unfold unlinkAfter at h
  obtain ⟨d, -, h⟩ := bind_eq_ok.1 h
  split at h
  · cases h; exact ⟨rfl, rfl⟩
  · split at h
    · cases h; exact ⟨rfl, rfl⟩
    · obtain ⟨pd, -, h⟩ := bind_eq_ok.1 h
      cases h; exact ⟨rfl, rfl⟩

theorem removeFromFringe_sameBinding {s s1 : FringeSearch} {node : NodeRef}
    (h : removeFromFringe s node = .ok s1) : SameBinding s s1 := by
  unfold removeFromFringe at h
  obtain ⟨s2, h2, h⟩ := bind_eq_ok.1 h
  exact (unlinkBefore_sameBinding h2).trans (unlinkAfter_sameBinding h)

theorem considerChild_sameBinding {s s1 : FringeSearch} {child : NodeRef} {g : edge_weight_t}
    (h : considerChild s child g = some s1) : SameBinding s s1 := by
  unfold considerChild at h
  split at h
  · split at h
    · split at h
      · cases h
      · cases h; exact ⟨rfl, rfl⟩
    · cases h; exact ⟨rfl, rfl⟩
  · cases h; exact ⟨rfl, rfl⟩

theorem appendToFringe_sameBinding {s s1 : FringeSearch} {child : NodeRef}
    (h : appendToFringe s child = .ok s1) : SameBinding s s1 := by
  unfold appendToFringe at h
  obtain ⟨s2, h2, h⟩ := bind_eq_ok.1 h
  obtain ⟨cd, -, h⟩ := bind_eq_ok.1 h
  have h2b : SameBinding s s2 := by
    unfold linkAfterEnd at h2
    split at h2
    · cases h2; exact ⟨rfl, rfl⟩
    · obtain ⟨fd, -, h2⟩ := bind_eq_ok.1 h2
      cases h2; exact ⟨rfl, rfl⟩
  cases h
  exact h2b.trans ⟨rfl, rfl⟩

theorem expandEdge_sameBinding {G : Graph} {s s1 : FringeSearch} {current : NodeRef}
    {edge : BaseFringeEdge} (h : expandEdge G s current edge = .ok s1) : SameBinding s s1 := by
  unfold expandEdge at h
  obtain ⟨cd, -, h⟩ := bind_eq_ok.1 h
  obtain ⟨child, -, h⟩ := bind_eq_ok.1 h
  split at h
  · cases h; exact ⟨rfl, rfl⟩
  · rename_i s2 hcons
    obtain ⟨chd, -, h⟩ := bind_eq_ok.1 h
    obtain ⟨s3, h3, h⟩ := bind_eq_ok.1 h
    exact (considerChild_sameBinding hcons).trans
      ((SameBinding.trans ⟨rfl, rfl⟩ (removeFromFringe_sameBinding h3)).trans
        (appendToFringe_sameBinding h))

theorem expandChildren_sameBinding {G : Graph} {current : NodeRef} :
    ∀ (edges : List BaseFringeEdge) {s s1 : FringeSearch},
      expandChildren G current s edges = .ok s1 → SameBinding s s1 := by
  intro edges
  induction edges with
  | nil => intro s s1 h; cases h; exact ⟨rfl, rfl⟩
  | cons e rest ih =>
    intro s s1 h
    unfold expandChildren at h
    obtain ⟨s2, h2, h⟩ := bind_eq_ok.1 h
    exact (expandEdge_sameBinding h2).trans (ih h)

theorem evaluate_sameBinding {G : Graph} {target : NodeRef} {s s1 : FringeSearch}
    {current : NodeRef} {f : edge_weight_t} (h : evaluate G target s current = .ok (f, s1)) :
    SameBinding s s1 := by
  unfold evaluate at h
  obtain ⟨cd, -, h⟩ := bind_eq_ok.1 h
  split at h
  · cases h; exact ⟨rfl, rfl⟩
  · cases h; exact ⟨rfl, rfl⟩

theorem expandCurrent_sameBinding {G : Graph} {s s1 : FringeSearch} {current : NodeRef}
    {next : Option NodeRef} (h : expandCurrent G s current = .ok (next, s1)) :
    SameBinding s s1 := by
  unfold expandCurrent at h
  obtain ⟨s2, h2, h⟩ := bind_eq_ok.1 h
  obtain ⟨cd, -, h⟩ := bind_eq_ok.1 h
  obtain ⟨s3, h3, h⟩ := bind_eq_ok.1 h
  obtain ⟨cd2, -, h⟩ := bind_eq_ok.1 h
  cases h
  exact (expandChildren_sameBinding _ h2).trans
    ((removeFromFringe_sameBinding h3).trans ⟨rfl, rfl⟩)

theorem scanNode_sameBinding {G : Graph} {target : NodeRef} {limit : edge_weight_t}
    {s : FringeSearch} {current : NodeRef} {minF : edge_weight_t} {r : ScanStep}
    (h : scanNode G target limit s current minF = .ok r) :
    match r with
    | .found s1 => SameBinding s s1
    | .next s1 _ _ => SameBinding s s1 := by
  unfold scanNode at h
  obtain ⟨⟨f, s0⟩, h0, h⟩ := bind_eq_ok.1 h
  have hb := evaluate_sameBinding h0
  simp only at h
  split at h
  · obtain ⟨cd, -, h⟩ := bind_eq_ok.1 h
    cases h; exact hb
  · split at h
    · cases h; exact hb
    · obtain ⟨⟨next, s1⟩, h1, h⟩ := bind_eq_ok.1 h
      cases h
      exact hb.trans (expandCurrent_sameBinding h1)

theorem scanPass_sameBinding {G : Graph} {target : NodeRef} {limit : edge_weight_t} :
    ∀ (fuel : Nat) {s : FringeSearch} {current : Option NodeRef} {minF : edge_weight_t}
      {r : Bool × edge_weight_t × FringeSearch},
      scanPass G target limit fuel s current minF = .ok r → SameBinding s r.2.2 := by
  intro fuel
  induction fuel with
  | zero =>
    intro s current minF r h
    cases current with
    | none => simp [scanPass, pure, Except.pure] at h; subst h; exact ⟨rfl, rfl⟩
    | some c => simp [scanPass] at h
  | succ fuel ih =>
    intro s current minF r h
    cases current with
    | none => simp [scanPass, pure, Except.pure] at h; subst h; exact ⟨rfl, rfl⟩
    | some c =>
      simp only [scanPass] at h
      obtain ⟨st, hst, h⟩ := bind_eq_ok.1 h
      have hb := scanNode_sameBinding hst
      cases st with
      | found s1 => cases h; exact hb
      | next s1 nx m1 => exact SameBinding.trans hb (ih h)

theorem searchLoop_sameBinding {G : Graph} {target : NodeRef} :
    ∀ (fuel : Nat) {limit : edge_weight_t} {s : FringeSearch} {r : Bool × FringeSearch},
      searchLoop G target fuel limit s = .ok r → SameBinding s r.2 := by
  intro fuel
  induction fuel with
  | zero =>
    intro limit s r h
    unfold searchLoop at h
    split at h
    · cases h; exact ⟨rfl, rfl⟩
    · cases h
  | succ fuel ih =>
    intro limit s r h
    unfold searchLoop at h
    split at h
    · cases h; exact ⟨rfl, rfl⟩
    · obtain ⟨⟨found, minF, s1⟩, h1, h⟩ := bind_eq_ok.1 h
      have hb := scanPass_sameBinding fuel h1
      simp only at h
      split at h
      · cases h; exact hb
      · exact SameBinding.trans hb (ih h)

theorem search_eq_stateAfter {fuel : Nat} {G : Graph} {s : FringeSearch} {target : NodeRef}
    {r : Option (List NodeRef)} (h : searchResult fuel G s target = .ok r) :
    search fuel G s target = .ok (r, stateAfter fuel G s target) := by
  unfold searchResult at h
  unfold stateAfter
  cases hs : search fuel G s target with
  | error e => rw [hs] at h; cases h
  | ok p =>
    rw [hs] at h
    cases h
    rfl

/-! ### C4: the order of the returned sequence -/

/-- C4, as stated, fails on the scenario of the specification: the search from A to D does
not return the nodes in travel order [B, C, D]. -/
theorem C4_travel_order_counterexample :
    searchResult 20 scenarioGraph (FringeSearch.bound 0 noData 0) 3 ≠ .ok (some [1, 2, 3]) := by
  decide!

/-- C4 (amended): for every successful `search(target)` with target different from start the
returned sequence lists the nodes in reverse travel order: its first element is the target,
it does not contain start, each element has the element that follows it as predecessor and
the predecessor of the last element is start.  On the scenario graph the search from A to D
returns [D, C, B] and the cost of D is 3. -/
theorem C4_path_in_reverse_travel_order :
    (∀ (fuel : Nat) (G : Graph) (s s1 : FringeSearch) (target : NodeRef) (path : List NodeRef),
      search fuel G s target = .ok (some path, s1) → target ≠ s.start →
        path.head? = some target ∧ s.start ∉ path ∧
        List.Chain' (fun a b => predecessor s1 a = some b) (path ++ [s.start])) ∧
    searchResult 20 scenarioGraph (FringeSearch.bound 0 noData 0) 3 = .ok (some [3, 2, 1]) ∧
    costAfterSearch 20 scenarioGraph (FringeSearch.bound 0 noData 0) 3 3 = .ok 3 := by
  refine ⟨?_, by decide!, by decide!⟩
  intro fuel G s s1 target path h hne
  unfold search at h
  obtain ⟨⟨found, s2⟩, hloop, h⟩ := bind_eq_ok.1 h
  have hb : SameBinding s s2 := searchLoop_sameBinding fuel hloop
  simp only at h
  split at h
  · obtain ⟨result, hrec, h⟩ := bind_eq_ok.1 h
    simp only [pure, Except.pure, Except.ok.injEq, Prod.mk.injEq, Option.some.injEq] at h
    obtain ⟨h1, h2⟩ := h
    subst h1; subst h2
    obtain ⟨hch, hns, hhd, -⟩ := reconstruct_spec s2 fuel target result hrec
    rw [hb.1] at hch hns hhd
    exact ⟨hhd hne, hns, hch⟩
  · simp [pure, Except.pure] at h

/-- The amended C4 applied to the scenario of the specification. -/
theorem C4_path_in_reverse_travel_order_witness :
    [3, 2, 1].head? = some 3 ∧ (FringeSearch.bound 0 noData 0).start ∉ [3, 2, 1] ∧
      List.Chain'
        (fun a b =>
          predecessor (stateAfter 20 scenarioGraph (FringeSearch.bound 0 noData 0) 3) a = some b)
        ([3, 2, 1] ++ [(FringeSearch.bound 0 noData 0).start]) :=
  C4_path_in_reverse_travel_order.1 20 scenarioGraph (FringeSearch.bound 0 noData 0)
    (stateAfter 20 scenarioGraph (FringeSearch.bound 0 noData 0) 3) 3 [3, 2, 1]
    (search_eq_stateAfter (by decide!)) (by decide)

/-! ### C5: searching for the start node -/

/-- C5 (amended): on an engine just bound to `start` (by the constructor or by `reset`,
both end in `setStartingNode`) that has not searched yet, `search(start)` succeeds with
the empty path and `cost(start)` is 0, whatever the graph, its policies and the search
data left in the nodes. -/
theorem C5_search_start_is_empty_path (G : Graph) (s : FringeSearch) (start : NodeRef)
    (fuel : Nat) :
    ∃ s1, search (fuel + 2) G (setStartingNode s start) start = .ok (some [], s1) ∧
      cost s1 start = .ok 0 := by
  have hd := setStartingNode_data_start s start
  have hs : (setStartingNode s start).start = start := rfl
  have hf : (setStartingNode s start).fringeStart = some start := rfl
  simp [search, searchLoop, hf, scanPass, scanNode, evaluate, FringeSearch.get, deref, hd, hs,
    reconstruct, cost, FringeSearch.setData, bind, Except.bind, pure, Except.pure]

/-! ### C9: `cost` has no guard -/

/-- C9, as stated, fails: after a search from node 0 that reached node 1, the engine is
rebound to node 2; node 1 still carries the old generation tag 0, the current generation is
1, and `cost` returns the stale value 1 instead of failing. -/
theorem C9_cost_stale_counterexample :
    searchResult 5 oneEdgeGraph (reset (FringeSearch.bound 0 noData 0) 0 0).1 1 =
        .ok (some [1]) ∧
      (reset (stateAfter 5 oneEdgeGraph (reset (FringeSearch.bound 0 noData 0) 0 0).1 1)
          1 2).1.searchID = 1 ∧
      tagOf
        (reset (stateAfter 5 oneEdgeGraph (reset (FringeSearch.bound 0 noData 0) 0 0).1 1)
          1 2).1 1 = some 0 ∧
      cost
        (reset (stateAfter 5 oneEdgeGraph (reset (FringeSearch.bound 0 noData 0) 0 0).1 1)
          1 2).1 1 = .ok 1 := by
  decide!

/-- C9 (amended): `cost(node)` makes no check.  For a node that holds search data it returns
the `g` stored there, whatever the generation tag of the data; for a node without search
data it dereferences a null pointer. -/
theorem C9_cost_returns_stored_g (s : FringeSearch) (node : NodeRef) :
    (∀ d : FringeSearchData, s.data node = some d → cost s node = .ok d.g) ∧
      (s.data node = none → cost s node = .error .nullDeref) := by
  constructor
  · intro d hd
    simp [cost, FringeSearch.get, deref, hd, bind, Except.bind, pure, Except.pure]
  · intro hd
    simp [cost, FringeSearch.get, deref, hd, bind, Except.bind]

/-- The amended C9 at a node whose data carries the tag 5 under an engine of generation 0. -/
theorem C9_cost_returns_stored_g_witness :
    cost ((FringeSearch.bound 0 noData 0).setData 1
        { previous := none, g := 7, h := -1, fringeNext := none, fringePrevious := none,
          searchID := 5 }) 1 = .ok 7 :=
  (C9_cost_returns_stored_g _ 1).1 _ rfl

theorem zeroCycle_step0 (m : edge_weight_t) :
    scanNode zeroCycleGraph 2 0 (cycleState 0) 0 m = .ok (.next (cycleState 1) (some 1) m) := by
  simp [scanNode, evaluate, expandCurrent, expandChildren, expandEdge, considerChild,
    removeFromFringe, unlinkBefore, unlinkAfter, appendToFringe, linkAfterEnd,
    FringeSearch.get, deref, FringeSearch.setData, cycleState, cycleData, zeroCycleGraph,
    defaultGraph, defaultHeuristic, defaultWeight, edgesOf, bind, Except.bind, pure, Except.pure]
  funext m
  split_ifs <;> simp_all

theorem zeroCycle_step1 (m : edge_weight_t) :
    scanNode zeroCycleGraph 2 0 (cycleState 1) 1 m = .ok (.next (cycleState 0) (some 0) m) := by
  simp [scanNode, evaluate, expandCurrent, expandChildren, expandEdge, considerChild,
    removeFromFringe, unlinkBefore, unlinkAfter, appendToFringe, linkAfterEnd,
    FringeSearch.get, deref, FringeSearch.setData, cycleState, cycleData, zeroCycleGraph,
    defaultGraph, defaultHeuristic, defaultWeight, edgesOf, bind, Except.bind, pure, Except.pure]
  funext m
  split_ifs <;> simp_all

theorem zeroCycle_scanPass (m : edge_weight_t) :
    ∀ fuel : Nat,
      scanPass zeroCycleGraph 2 0 fuel (cycleState 0) (some 0) m = .error .outOfFuel ∧
      scanPass zeroCycleGraph 2 0 fuel (cycleState 1) (some 1) m = .error .outOfFuel := by
  intro fuel
  induction fuel with
  | zero => exact ⟨rfl, rfl⟩
  | succ fuel ih =>
    constructor
    · simp only [scanPass, zeroCycle_step0, bind, Except.bind]
      exact ih.2
    · simp only [scanPass, zeroCycle_step1, bind, Except.bind]
      exact ih.1

theorem zeroCycle_first_steps (fuel : Nat) :
    scanPass zeroCycleGraph 2 0 (fuel + 2) (FringeSearch.bound 0 noData 0) (some 0) FLT_MAX =
      scanPass zeroCycleGraph 2 0 fuel (cycleState 0) (some 0) FLT_MAX := by
  have h : ∀ (s : FringeSearch), s = cycleState 0 →
      scanPass zeroCycleGraph 2 0 fuel s (some 0) FLT_MAX =
        scanPass zeroCycleGraph 2 0 fuel (cycleState 0) (some 0) FLT_MAX := by
    intro s hs; rw [hs]
  simp [scanPass, scanNode, evaluate, expandCurrent, expandChildren, expandEdge, considerChild,
    removeFromFringe, unlinkBefore, unlinkAfter, appendToFringe, linkAfterEnd,
    FringeSearch.get, deref, FringeSearch.setData, FringeSearch.bound, setStartingNode,
    allocateSearchData, noData, zeroCycleGraph,
    defaultGraph, defaultHeuristic, defaultWeight, edgesOf, bind, Except.bind, pure, Except.pure]
  apply h
  simp only [cycleState, cycleData]
  congr 1
  funext m
  split_ifs <;> simp_all

theorem zeroCycle_not_reachable : ¬ Reachable zeroCycleGraph 0 2 := by
  have key : ∀ n, Reachable zeroCycleGraph 0 n → n = 0 ∨ n = 1 := by
    intro n hn
    induction hn with
    | refl => exact Or.inl rfl
    | tail _ hstep ih =>
      obtain ⟨e, he, hto⟩ := hstep
      rcases ih with h | h
      · subst h
        simp [zeroCycleGraph, defaultGraph, edgesOf] at he
        subst he
        simp at hto
        exact Or.inr hto.symm
      · subst h
        simp [zeroCycleGraph, defaultGraph, edgesOf] at he
        subst he
        simp at hto
        exact Or.inl hto.symm
  intro h
  rcases key 2 h with h | h <;> cases h

/-! ### C3: an unreachable target behind a zero-weight cycle -/

/-- C3 at a failing input: in `zeroCycleGraph` no path leads from node 0 to node 2, yet
`search(2)` from node 0 never reports unreachable: the first scan pass expands node 0 and
node 1 in turn for ever, so the call ends with no amount of fuel. -/
theorem C3_zero_cycle_never_reports_unreachable :
    ¬ Reachable zeroCycleGraph 0 2 ∧
      ∀ fuel : Nat,
        searchResult fuel zeroCycleGraph (FringeSearch.bound 0 noData 0) 2 =
          .error .outOfFuel := by
  refine ⟨zeroCycle_not_reachable, ?_⟩
  intro fuel
  have hfs : (FringeSearch.bound 0 noData 0).fringeStart = some 0 := rfl
  match fuel with
  | 0 => rfl
  | 1 => rfl
  | 2 => rfl
  | fuel + 3 =>
    simp only [searchResult, search, searchLoop, hfs, zeroCycleGraph, defaultGraph,
      defaultHeuristic]
    have := zeroCycle_first_steps fuel
    simp only [zeroCycleGraph, defaultGraph, defaultHeuristic] at this
    rw [this]
    have h2 := (zeroCycle_scanPass FLT_MAX fuel).1
    simp only [zeroCycleGraph, defaultGraph, defaultHeuristic] at h2
    rw [h2]
    rfl
theorem scanPass_mono {G : Graph} {target : NodeRef} {limit : edge_weight_t} :
    ∀ (fuel : Nat) {s : FringeSearch} {current : Option NodeRef} {minF : edge_weight_t}
      {r : Bool × edge_weight_t × FringeSearch},
      scanPass G target limit fuel s current minF = .ok r →
        scanPass G target limit (fuel + 1) s current minF = .ok r := by
  intro fuel
  induction fuel with
  | zero =>
    intro s current minF r h
    cases current with
    | none => simpa [scanPass] using h
    | some c => simp [scanPass] at h
  | succ fuel ih =>
    intro s current minF r h
    cases current with
    | none => simpa [scanPass] using h
    | some c =>
      rw [scanPass] at h ⊢
      obtain ⟨st, hst, h⟩ := bind_eq_ok.1 h
      refine bind_eq_ok.2 ⟨st, hst, ?_⟩
      cases st with
      | found s1 => exact h
      | next s1 nx m1 => exact ih h

theorem scanPass_mono_add {G : Graph} {target : NodeRef} {limit : edge_weight_t}
    {fuel : Nat} {s : FringeSearch} {current : Option NodeRef} {minF : edge_weight_t}
    {r : Bool × edge_weight_t × FringeSearch}
    (h : scanPass G target limit fuel s current minF = .ok r) (n : Nat) :
    scanPass G target limit (fuel + n) s current minF = .ok r := by
  induction n with
  | zero => exact h
  | succ n ih => exact scanPass_mono _ ih

theorem searchLoop_mono {G : Graph} {target : NodeRef} :
    ∀ (fuel : Nat) {limit : edge_weight_t} {s : FringeSearch} {r : Bool × FringeSearch},
      searchLoop G target fuel limit s = .ok r →
        searchLoop G target (fuel + 1) limit s = .ok r := by
  intro fuel
  induction fuel with
  | zero =>
    intro limit s r h
    cases hfs : s.fringeStart with
    | none => simpa [searchLoop, hfs] using h
    | some x => simp [searchLoop, hfs] at h
  | succ fuel ih =>
    intro limit s r h
    cases hfs : s.fringeStart with
    | none => simpa [searchLoop, hfs] using h
    | some x =>
      rw [searchLoop] at h ⊢
      simp only [hfs] at h ⊢
      obtain ⟨⟨found, minF, s1⟩, h1, h⟩ := bind_eq_ok.1 h
      refine bind_eq_ok.2 ⟨(found, minF, s1), scanPass_mono _ h1, ?_⟩
      cases found with
      | true => exact h
      | false => exact ih h

theorem searchLoop_mono_add {G : Graph} {target : NodeRef} {fuel : Nat} {limit : edge_weight_t}
    {s : FringeSearch} {r : Bool × FringeSearch}
    (h : searchLoop G target fuel limit s = .ok r) (n : Nat) :
    searchLoop G target (fuel + n) limit s = .ok r := by
  induction n with
  | zero => exact h
  | succ n ih => exact searchLoop_mono _ ih

theorem reconstruct_mono (s : FringeSearch) :
    ∀ (fuel : Nat) {current : Option NodeRef} {path : List NodeRef},
      reconstruct s fuel current = .ok path → reconstruct s (fuel + 1) current = .ok path := by
  intro fuel
  induction fuel with
  | zero =>
    intro current path h
    cases current with
    | none => simp [reconstruct] at h
    | some c =>
      by_cases hc : c = s.start
      · simpa [reconstruct, hc] using h
      · simp [reconstruct, hc] at h
  | succ fuel ih =>
    intro current path h
    cases current with
    | none => simp [reconstruct] at h
    | some c =>
      by_cases hc : c = s.start
      · simpa [reconstruct, hc] using h
      · rw [reconstruct] at h ⊢
        simp only [hc, if_false] at h ⊢
        obtain ⟨d, hd, h⟩ := bind_eq_ok.1 h
        obtain ⟨rest, hr, h⟩ := bind_eq_ok.1 h
        exact bind_eq_ok.2 ⟨d, hd, bind_eq_ok.2 ⟨rest, ih hr, h⟩⟩

theorem loopState_spec {fuel : Nat} {G : Graph} {s : FringeSearch} {target : NodeRef} {b : Bool}
    (h : loopFound fuel G s target = .ok b) :
    searchLoop G target fuel (G.calculateHeuristic s.start target) s =
      .ok (b, loopState fuel G s target) := by
  unfold loopFound at h
  unfold loopState
  cases hs : searchLoop G target fuel (G.calculateHeuristic s.start target) s with
  | error e => rw [hs] at h; cases h
  | ok p =>
    rw [hs] at h
    cases h
    rfl

theorem reconstruct_own_predecessor {s : FringeSearch} {c : NodeRef} (hc : c ≠ s.start)
    (hp : predecessor s c = some c) :
    ∀ fuel : Nat, reconstruct s fuel (some c) = .error .outOfFuel := by
  intro fuel
  induction fuel with
  | zero => simp [reconstruct, hc]
  | succ fuel ih =>
    unfold predecessor at hp
    cases hd : s.data c with
    | none => simp [hd] at hp
    | some d =>
      simp only [hd] at hp
      simp [reconstruct, hc, FringeSearch.get, deref, hd, hp, ih, bind, Except.bind]

/-! ### C6: termination -/

/-- C6 at a failing input: on `selfLoopGraph` (non-negative weights, default policies) the
scan loops of `search(2)` from node 0 end with the target found, but node 1 has become its
own predecessor, so the walk along the predecessor links from the target never reaches
start and the call returns with no amount of fuel. -/
theorem C6_self_loop_predecessor_walk_never_ends :
    loopFound 5 selfLoopGraph (FringeSearch.bound 0 noData 0) 2 = .ok true ∧
      predecessor (loopState 5 selfLoopGraph (FringeSearch.bound 0 noData 0) 2) 1 = some 1 ∧
      ∀ fuel : Nat,
        searchResult fuel selfLoopGraph (FringeSearch.bound 0 noData 0) 2 =
          .error .outOfFuel := by
  have hfound : loopFound 5 selfLoopGraph (FringeSearch.bound 0 noData 0) 2 = .ok true := by
    decide!
  have hp1 : predecessor (loopState 5 selfLoopGraph (FringeSearch.bound 0 noData 0) 2) 1 =
      some 1 := by decide!
  have hp2 : predecessor (loopState 5 selfLoopGraph (FringeSearch.bound 0 noData 0) 2) 2 =
      some 1 := by decide!
  have hst : (loopState 5 selfLoopGraph (FringeSearch.bound 0 noData 0) 2).start = 0 := by
    decide!
  refine ⟨hfound, hp1, ?_⟩
  intro fuel
  match fuel with
  | 0 => decide!
  | 1 => decide!
  | 2 => decide!
  | 3 => decide!
  | 4 => decide!
  | n + 5 =>
    have hloop := searchLoop_mono_add (loopState_spec hfound) n
    have hrec1 := reconstruct_own_predecessor (s := loopState 5 selfLoopGraph
      (FringeSearch.bound 0 noData 0) 2) (c := 1) (by rw [hst]; decide) hp1 (n + 4)
    have h5 : n + 5 = 5 + n := by omega
    unfold searchResult search
    rw [h5, hloop]
    simp only [bind, Except.bind, ite_true]
    have h4 : 5 + n = (n + 4) + 1 := by omega
    rw [h4, reconstruct]
    unfold predecessor at hp2
    cases hd : (loopState 5 selfLoopGraph (FringeSearch.bound 0 noData 0) 2).data 2 with
    | none => simp [hd] at hp2
    | some d =>
      simp only [hd] at hp2
      simp [hst, FringeSearch.get, deref, hd, hp2, hrec1, bind, Except.bind, Except.map]
theorem search_mono_add {fuel : Nat} {G : Graph} {s : FringeSearch} {target : NodeRef}
    {r : Option (List NodeRef) × FringeSearch} (h : search fuel G s target = .ok r) (n : Nat) :
    search (fuel + n) G s target = .ok r := by
  unfold search at h ⊢
  obtain ⟨⟨found, s1⟩, hloop, h⟩ := bind_eq_ok.1 h
  refine bind_eq_ok.2 ⟨(found, s1), searchLoop_mono_add hloop n, ?_⟩
  cases found with
  | false => exact h
  | true =>
    simp only [ite_true] at h ⊢
    obtain ⟨result, hrec, h⟩ := bind_eq_ok.1 h
    refine bind_eq_ok.2 ⟨result, ?_, h⟩
    clear h hloop
    induction n with
    | zero => exact hrec
    | succ n ih => exact reconstruct_mono s1 _ ih

theorem searchResult_mono_add {fuel : Nat} {G : Graph} {s : FringeSearch} {target : NodeRef}
    {r : Option (List NodeRef)} (h : searchResult fuel G s target = .ok r) (n : Nat) :
    searchResult (fuel + n) G s target = .ok r := by
  have h1 := search_mono_add (search_eq_stateAfter h) n
  simp [searchResult, h1, Except.map]

theorem costAfterSearch_mono_add {fuel : Nat} {G : Graph} {s : FringeSearch}
    {target node : NodeRef} {c : edge_weight_t}
    (h : costAfterSearch fuel G s target node = .ok c) (n : Nat) :
    costAfterSearch (fuel + n) G s target node = .ok c := by
  unfold costAfterSearch at h ⊢
  obtain ⟨r, hr, h⟩ := bind_eq_ok.1 h
  exact bind_eq_ok.2 ⟨r, search_mono_add hr n, h⟩

theorem nonNeg_edgesOf (l : List (NodeRef × NodeRef × edge_weight_t))
    (h : ∀ t ∈ l, 0 ≤ t.2.2) : NonNegWeights (defaultGraph (edgesOf l)) := by
  intro n e he
  simp only [defaultGraph, edgesOf, List.mem_map, List.mem_filter] at he
  obtain ⟨t, ⟨ht, -⟩, rfl⟩ := he
  exact h t ht

/-! ### C1: the reported cost -/

/-- C1 at a failing input: `detourGraph` has non-negative weights and a walk of weight 2
from node 0 to node 3, but `search(3)` on an engine freshly bound to node 0 returns the
path [3] and `cost(3)` is 10, with any amount of fuel from 6 on. -/
theorem C1_cost_not_minimal_with_zero_loop :
    NonNegWeights detourGraph ∧
      IsWalk detourGraph 0
        [{ id := 0, from_ := some 0, to_ := some 2, weight := 1 },
         { id := 0, from_ := some 2, to_ := some 3, weight := 1 }] 3 ∧
      walkWeight
        [{ id := 0, from_ := some 0, to_ := some 2, weight := 1 },
         { id := 0, from_ := some 2, to_ := some 3, weight := 1 }] = 2 ∧
      ∀ n : Nat,
        searchResult (6 + n) detourGraph (FringeSearch.bound 0 noData 0) 3 = .ok (some [3]) ∧
        costAfterSearch (6 + n) detourGraph (FringeSearch.bound 0 noData 0) 3 3 = .ok 10 := by
  refine ⟨nonNeg_edgesOf _ (by decide), ?_, by decide, ?_⟩
  · exact ⟨by decide, 2, rfl, by decide, 3, rfl, rfl⟩
  · intro n
    exact ⟨searchResult_mono_add (by decide!) n, costAfterSearch_mono_add (by decide!) n⟩

/-! ### C2: a reachable target -/

/-- C2 at a failing input: `startLoopGraph` has non-negative weights and the edge 0 → 1, but
`search(1)` on an engine freshly bound to node 0 returns the null result, with any amount
of fuel from 3 on. -/
theorem C2_unreachable_reported_with_zero_loop :
    NonNegWeights startLoopGraph ∧ Reachable startLoopGraph 0 1 ∧
      ∀ n : Nat,
        searchResult (3 + n) startLoopGraph (FringeSearch.bound 0 noData 0) 1 = .ok none := by
  refine ⟨nonNeg_edgesOf _ (by decide), ?_, ?_⟩
  · apply Relation.ReflTransGen.single
    exact ⟨{ id := 0, from_ := some 0, to_ := some 1, weight := 1 },
      by simp [startLoopGraph, defaultGraph, edgesOf], rfl⟩
  · intro n
    exact searchResult_mono_add (by decide!) n

/-! ### C7: reset after a first search -/

/-- C7 at a failing input: an engine built by the bound constructor whose indeterminate
`searchID` is 0 runs `search(1)` from node 0 on `twoSourcesGraph`; `reset(2)` with the
counter at 0 gives it the generation 0 again, and `search(1)` then trusts the `g = 1` left
in node 1 and returns the null result, where an engine freshly bound to node 2 over a graph
without search data returns [1] with cost 5. -/
theorem C7_reset_after_bound_constructor_reads_stale_data :
    searchResult 5 twoSourcesGraph (FringeSearch.bound 0 noData 0) 1 = .ok (some [1]) ∧
      (reset (stateAfter 5 twoSourcesGraph (FringeSearch.bound 0 noData 0) 1) 0 2).1.searchID =
        (FringeSearch.bound 0 noData 0).searchID ∧
      (∀ n : Nat,
        searchResult (3 + n) twoSourcesGraph
          (reset (stateAfter 5 twoSourcesGraph (FringeSearch.bound 0 noData 0) 1) 0 2).1 1 =
            .ok none) ∧
      ∀ n : Nat,
        searchResult (5 + n) twoSourcesGraph (FringeSearch.bound 0 noData 2) 1 =
            .ok (some [1]) ∧
          costAfterSearch (5 + n) twoSourcesGraph (FringeSearch.bound 0 noData 2) 1 1 =
            .ok 5 := by
  refine ⟨by decide!, by decide!, ?_, ?_⟩
  · intro n
    exact searchResult_mono_add (by decide!) n
  · intro n
    exact ⟨searchResult_mono_add (by decide!) n, costAfterSearch_mono_add (by decide!) n⟩

theorem addOutgoing_spec {st st1 : GraphStore} {n : NodeRef} {e : EdgeRef}
    (h : addOutgoing st n e = .ok st1) :
    st1.edges = st.edges ∧
      (∀ m, getOutgoing st1 m = getOutgoing st m ++ (if m = n then [e] else [])) ∧
      (∀ m, getIncoming st1 m = getIncoming st m) := by
  unfold addOutgoing at h
  obtain ⟨nd, hnd, h⟩ := bind_eq_ok.1 h
  rw [deref_eq_ok] at hnd
  cases h
  refine ⟨rfl, ?_, ?_⟩
  · intro m
    by_cases hm : m = n
    · subst hm
      have hlt : m < st.nodes.length := (List.getElem?_eq_some.1 hnd).1
      simp [getOutgoing, hnd, List.getElem?_set, hlt]
    · have hm2 : n ≠ m := fun h => hm h.symm
      simp [getOutgoing, List.getElem?_set, hm, hm2]
  · intro m
    by_cases hm : m = n
    · subst hm
      have hlt : m < st.nodes.length := (List.getElem?_eq_some.1 hnd).1
      simp [getIncoming, hnd, List.getElem?_set, hlt]
    · have hm2 : n ≠ m := fun h => hm h.symm
      simp [getIncoming, List.getElem?_set, hm, hm2]

theorem addIncoming_spec {st st1 : GraphStore} {n : NodeRef} {e : EdgeRef}
    (h : addIncoming st n e = .ok st1) :
    st1.edges = st.edges ∧
      (∀ m, getIncoming st1 m = getIncoming st m ++ (if m = n then [e] else [])) ∧
      (∀ m, getOutgoing st1 m = getOutgoing st m) := by
  unfold addIncoming at h
  obtain ⟨nd, hnd, h⟩ := bind_eq_ok.1 h
  rw [deref_eq_ok] at hnd
  cases h
  refine ⟨rfl, ?_, ?_⟩
  · intro m
    by_cases hm : m = n
    · subst hm
      have hlt : m < st.nodes.length := (List.getElem?_eq_some.1 hnd).1
      simp [getIncoming, hnd, List.getElem?_set, hlt]
    · have hm2 : n ≠ m := fun h => hm h.symm
      simp [getIncoming, List.getElem?_set, hm, hm2]
  · intro m
    by_cases hm : m = n
    · subst hm
      have hlt : m < st.nodes.length := (List.getElem?_eq_some.1 hnd).1
      simp [getOutgoing, hnd, List.getElem?_set, hlt]
    · have hm2 : n ≠ m := fun h => hm h.symm
      simp [getOutgoing, List.getElem?_set, hm, hm2]

theorem newNode_adjacency (st : GraphStore) (id : Nat) (m : NodeRef) :
    getOutgoing (newNode st id).1 m = getOutgoing st m ∧
      getIncoming (newNode st id).1 m = getIncoming st m := by
  simp only [getOutgoing, getIncoming, newNode]
  rcases Nat.lt_trichotomy m st.nodes.length with h | h | h
  · simp [List.getElem?_append_left h]
  · subst h
    simp
  · have h1 : st.nodes.length ≤ m := Nat.le_of_lt h
    have h2 : (st.nodes ++ [({ id := id, incoming := [], outgoing := [] } : BaseFringeNode)])[m]? = none := by
      apply List.getElem?_eq_none
      simp; omega
    have h3 : st.nodes[m]? = none := List.getElem?_eq_none h1
    simp [h2, h3]

/-- What one call does to the store: the edge count, and the adjacency lists. -/
theorem applyOp_spec {st st1 : GraphStore} {op : GraphOp} (h : applyOp st op = .ok st1) :
    (∀ m, getOutgoing st1 m =
        getOutgoing st m ++ attachedTo (sourceEvents st.edges.length [op]) m) ∧
      (∀ m, getIncoming st1 m =
        getIncoming st m ++ attachedTo (targetEvents st.edges.length [op]) m) ∧
      (∀ ops, sourceEvents st.edges.length (op :: ops) =
        sourceEvents st.edges.length [op] ++ sourceEvents st1.edges.length ops) ∧
      (∀ ops, targetEvents st.edges.length (op :: ops) =
        targetEvents st.edges.length [op] ++ targetEvents st1.edges.length ops) := by
  cases op with
  | newNode id =>
    simp only [applyOp, pure, Except.pure, Except.ok.injEq] at h
    subst h
    refine ⟨fun m => ?_, fun m => ?_, fun ops => ?_, fun ops => ?_⟩
    · simp [(newNode_adjacency st id m).1, sourceEvents, attachedTo]
    · simp [(newNode_adjacency st id m).2, targetEvents, attachedTo]
    · simp [sourceEvents, newNode]
    · simp [targetEvents, newNode]
  | newEdge id w =>
    simp only [applyOp, pure, Except.pure, Except.ok.injEq] at h
    subst h
    refine ⟨fun m => ?_, fun m => ?_, fun ops => ?_, fun ops => ?_⟩
    · simp [sourceEvents, attachedTo, newEdge, getOutgoing]
    · simp [targetEvents, attachedTo, newEdge, getIncoming]
    · simp [sourceEvents, newEdge]
    · simp [targetEvents, newEdge]
  | newEdgeBetween id source target weight =>
    simp only [applyOp] at h
    obtain ⟨r, hr, h⟩ := bind_eq_ok.1 h
    simp only [pure, Except.pure, Except.ok.injEq] at h
    subst h
    unfold newEdgeBetween at hr
    obtain ⟨st2, h2, hr⟩ := bind_eq_ok.1 hr
    obtain ⟨st3, h3, hr⟩ := bind_eq_ok.1 hr
    simp only [pure, Except.pure, Except.ok.injEq] at hr
    subst hr
    obtain ⟨e2, o2, i2⟩ := addOutgoing_spec h2
    obtain ⟨e3, i3, o3⟩ := addIncoming_spec h3
    refine ⟨fun m => ?_, fun m => ?_, fun ops => ?_, fun ops => ?_⟩
    · rw [o3, o2]
      by_cases hm : m = source <;> simp [sourceEvents, attachedTo, getOutgoing, hm, eq_comm]
    · rw [i3, i2]
      by_cases hm : m = target <;> simp [targetEvents, attachedTo, getIncoming, hm, eq_comm]
    · simp [sourceEvents, e3, e2]
    · simp [targetEvents, e3, e2]
  | setFrom edge node =>
    simp only [applyOp] at h
    unfold setFrom at h
    obtain ⟨ed, hed, h⟩ := bind_eq_ok.1 h
    obtain ⟨e2, o2, i2⟩ := addOutgoing_spec h
    refine ⟨fun m => ?_, fun m => ?_, fun ops => ?_, fun ops => ?_⟩
    · rw [o2]
      by_cases hm : m = node <;> simp [sourceEvents, attachedTo, getOutgoing, hm, eq_comm]
    · rw [i2]
      simp [targetEvents, attachedTo, getIncoming]
    · simp [sourceEvents, e2]
    · simp [targetEvents, e2]
  | setTo edge node =>
    simp only [applyOp] at h
    unfold setTo at h
    obtain ⟨ed, hed, h⟩ := bind_eq_ok.1 h
    obtain ⟨e2, i2, o2⟩ := addIncoming_spec h
    refine ⟨fun m => ?_, fun m => ?_, fun ops => ?_, fun ops => ?_⟩
    · rw [o2]
      simp [sourceEvents, attachedTo, getOutgoing]
    · rw [i2]
      by_cases hm : m = node <;> simp [targetEvents, attachedTo, getIncoming, hm, eq_comm]
    · simp [sourceEvents, e2]
    · simp [targetEvents, e2]

theorem attachedTo_append (a b : List (EdgeRef × NodeRef)) (m : NodeRef) :
    attachedTo (a ++ b) m = attachedTo a m ++ attachedTo b m := by
  simp [attachedTo, List.filterMap_append]

theorem run_adjacency :
    ∀ (ops : List GraphOp) (st st1 : GraphStore), run st ops = .ok st1 →
      (∀ m, getOutgoing st1 m =
        getOutgoing st m ++ attachedTo (sourceEvents st.edges.length ops) m) ∧
      (∀ m, getIncoming st1 m =
        getIncoming st m ++ attachedTo (targetEvents st.edges.length ops) m) := by
  intro ops
  induction ops with
  | nil =>
    intro st st1 h
    simp only [run, pure, Except.pure, Except.ok.injEq] at h
    subst h
    simp [sourceEvents, targetEvents, attachedTo]
  | cons op ops ih =>
    intro st st1 h
    simp only [run] at h
    obtain ⟨st2, h2, h⟩ := bind_eq_ok.1 h
    obtain ⟨ho, hi, hs, ht⟩ := applyOp_spec h2
    obtain ⟨iho, ihi⟩ := ih st2 st1 h
    constructor
    · intro m
      rw [iho, ho, hs ops, attachedTo_append, List.append_assoc]
    · intro m
      rw [ihi, hi, ht ops, attachedTo_append, List.append_assoc]

theorem getElem?_append_one {α : Type} (l : List α) (x : α) (e : Nat) :
    (l ++ [x])[e]? = if e = l.length then some x else l[e]? := by
  rcases Nat.lt_trichotomy e l.length with h | h | h
  · simp [List.getElem?_append_left h, Nat.ne_of_lt h]
  · subst h; simp
  · have h2 : (l ++ [x])[e]? = none := by
      apply List.getElem?_eq_none
      simp; omega
    have h3 : l[e]? = none := List.getElem?_eq_none (Nat.le_of_lt h)
    simp [h2, h3, Nat.ne_of_gt h]

theorem applyOp_endpoints {st st1 : GraphStore} {op : GraphOp} (h : applyOp st op = .ok st1) :
    (∀ e n, getFrom st1 e = some n →
        getFrom st e = some n ∨ (e, n) ∈ sourceEvents st.edges.length [op]) ∧
      (∀ e n, getTo st1 e = some n →
        getTo st e = some n ∨ (e, n) ∈ targetEvents st.edges.length [op]) := by
  cases op with
  | newNode id =>
    simp only [applyOp, pure, Except.pure, Except.ok.injEq] at h
    subst h
    exact ⟨fun e n h => Or.inl h, fun e n h => Or.inl h⟩
  | newEdge id w =>
    simp only [applyOp, pure, Except.pure, Except.ok.injEq] at h
    subst h
    constructor
    · intro e n hf
      left
      simp only [getFrom, newEdge, getElem?_append_one] at hf ⊢
      by_cases he : e = st.edges.length
      · simp [he] at hf
      · simpa [he] using hf
    · intro e n hf
      left
      simp only [getTo, newEdge, getElem?_append_one] at hf ⊢
      by_cases he : e = st.edges.length
      · simp [he] at hf
      · simpa [he] using hf
  | newEdgeBetween id source target weight =>
    simp only [applyOp] at h
    obtain ⟨r, hr, h⟩ := bind_eq_ok.1 h
    simp only [pure, Except.pure, Except.ok.injEq] at h
    subst h
    unfold newEdgeBetween at hr
    obtain ⟨st2, h2, hr⟩ := bind_eq_ok.1 hr
    obtain ⟨st3, h3, hr⟩ := bind_eq_ok.1 hr
    simp only [pure, Except.pure, Except.ok.injEq] at hr
    subst hr
    obtain ⟨e2, -, -⟩ := addOutgoing_spec h2
    obtain ⟨e3, -, -⟩ := addIncoming_spec h3
    constructor
    · intro e n hf
      simp only [getFrom, e3, e2, getElem?_append_one] at hf ⊢
      split_ifs at hf with he
      · right
        simp only [Option.some.injEq] at hf
        simp [sourceEvents, he, hf]
      · left; exact hf
    · intro e n hf
      simp only [getTo, e3, e2, getElem?_append_one] at hf ⊢
      split_ifs at hf with he
      · right
        simp only [Option.some.injEq] at hf
        simp [targetEvents, he, hf]
      · left; exact hf
  | setFrom edge node =>
    simp only [applyOp] at h
    unfold setFrom at h
    obtain ⟨ed, hed, h⟩ := bind_eq_ok.1 h
    rw [deref_eq_ok] at hed
    obtain ⟨e2, -, -⟩ := addOutgoing_spec h
    have hlt : edge < st.edges.length := (List.getElem?_eq_some.1 hed).1
    constructor
    · intro e n hf
      simp only [getFrom, e2, List.getElem?_set] at hf ⊢
      by_cases he : edge = e
      · right
        subst he
        simp [hlt] at hf
        simp [sourceEvents, hf]
      · left
        simpa [he] using hf
    · intro e n hf
      left
      simp only [getTo, e2, List.getElem?_set] at hf ⊢
      by_cases he : edge = e
      · subst he
        simp [hlt] at hf
        simp [hed, hf]
      · simpa [he] using hf
  | setTo edge node =>
    simp only [applyOp] at h
    unfold setTo at h
    obtain ⟨ed, hed, h⟩ := bind_eq_ok.1 h
    rw [deref_eq_ok] at hed
    obtain ⟨e2, -, -⟩ := addIncoming_spec h
    have hlt : edge < st.edges.length := (List.getElem?_eq_some.1 hed).1
    constructor
    · intro e n hf
      left
      simp only [getFrom, e2, List.getElem?_set] at hf ⊢
      by_cases he : edge = e
      · subst he
        simp [hlt] at hf
        simp [hed, hf]
      · simpa [he] using hf
    · intro e n hf
      simp only [getTo, e2, List.getElem?_set] at hf ⊢
      by_cases he : edge = e
      · right
        subst he
        simp [hlt] at hf
        simp [targetEvents, hf]
      · left
        simpa [he] using hf

theorem mem_attachedTo {events : List (EdgeRef × NodeRef)} {e : EdgeRef} {n : NodeRef} :
    e ∈ attachedTo events n ↔ (e, n) ∈ events := by
  simp only [attachedTo, List.mem_filterMap]
  constructor
  · rintro ⟨⟨e1, n1⟩, hmem, hp⟩
    by_cases hn : n1 = n
    · simp [hn] at hp
      subst hn; subst hp
      exact hmem
    · simp [hn] at hp
  · intro h
    exact ⟨(e, n), h, by simp⟩

theorem run_endpoints_listed :
    ∀ (ops : List GraphOp) (st st1 : GraphStore), run st ops = .ok st1 →
      ((∀ e n, getFrom st e = some n → e ∈ getOutgoing st n) ∧
        (∀ e n, getTo st e = some n → e ∈ getIncoming st n)) →
      (∀ e n, getFrom st1 e = some n → e ∈ getOutgoing st1 n) ∧
        (∀ e n, getTo st1 e = some n → e ∈ getIncoming st1 n) := by
  intro ops
  induction ops with
  | nil =>
    intro st st1 h hinv
    simp only [run, pure, Except.pure, Except.ok.injEq] at h
    subst h
    exact hinv
  | cons op ops ih =>
    intro st st1 h hinv
    simp only [run] at h
    obtain ⟨st2, h2, h⟩ := bind_eq_ok.1 h
    apply ih st2 st1 h
    obtain ⟨ho, hi, -, -⟩ := applyOp_spec h2
    obtain ⟨hf, ht⟩ := applyOp_endpoints h2
    constructor
    · intro e n hfe
      rw [ho, List.mem_append]
      rcases hf e n hfe with h | h
      · exact Or.inl (hinv.1 e n h)
      · exact Or.inr (mem_attachedTo.2 h)
    · intro e n hte
      rw [hi, List.mem_append]
      rcases ht e n hte with h | h
      · exact Or.inl (hinv.2 e n h)
      · exact Or.inr (mem_attachedTo.2 h)
theorem count_attachedTo (events : List (EdgeRef × NodeRef)) (e : EdgeRef) (n : NodeRef) :
    (attachedTo events n).count e = events.count (e, n) := by
  induction events with
  | nil => simp [attachedTo]
  | cons p rest ih =>
    obtain ⟨e1, n1⟩ := p
    simp only [attachedTo, List.filterMap_cons] at ih ⊢
    by_cases hn : n1 = n
    · subst hn
      by_cases he : e1 = e
      · subst he
        simp [ih]
      · have : ¬ ((e1, n1) = (e, n1)) := by simp [he]
        simp [ih, List.count_cons, he, this]
    · have : ¬ ((e1, n1) = (e, n)) := by simp [hn]
      simp [hn, ih, List.count_cons, this]

/-! ### C10: adjacency lists after re-attaching an edge -/

/-- C10, as stated, fails: after an edge from node 0 to node 1 is created and `setFrom` moves
its source to node 2, the edge is still in the outgoing list of node 0, which is not its
source. -/
theorem C10_setFrom_counterexample :
    run GraphStore.empty rewireOps = .ok rewiredStore ∧ getFrom rewiredStore 0 = some 2 ∧
      0 ∈ getOutgoing rewiredStore 0 := by
  decide

/-- C10 (amended): after any sequence of node creations, edge creations and `setFrom` /
`setTo` calls, the outgoing (incoming) list of a node is exactly the sequence of edges that
were given this node as source (target) by a constructor or by `setFrom` (`setTo`), in call
order and with repetitions: nothing is ever removed.  So every edge occurs at least once in
the outgoing list of its current source and in the incoming list of its current target,
and it occurs in the list of a node as many times as it was attached to that node. -/
theorem C10_adjacency_lists_record_attachments (ops : List GraphOp) (st : GraphStore)
    (h : run GraphStore.empty ops = .ok st) :
    (∀ n, getOutgoing st n = attachedTo (sourceEvents 0 ops) n) ∧
      (∀ n, getIncoming st n = attachedTo (targetEvents 0 ops) n) ∧
      (∀ e n, getFrom st e = some n → e ∈ getOutgoing st n) ∧
      (∀ e n, getTo st e = some n → e ∈ getIncoming st n) ∧
      (∀ e n, (getOutgoing st n).count e = (sourceEvents 0 ops).count (e, n)) ∧
      (∀ e n, (getIncoming st n).count e = (targetEvents 0 ops).count (e, n)) := by
  obtain ⟨ho, hi⟩ := run_adjacency ops GraphStore.empty st h
  have hinv := run_endpoints_listed ops GraphStore.empty st h
    ⟨fun e n hf => by simp [getFrom, GraphStore.empty] at hf,
     fun e n hf => by simp [getTo, GraphStore.empty] at hf⟩
  have ho1 : ∀ n, getOutgoing st n = attachedTo (sourceEvents 0 ops) n := by
    intro n
    rw [ho n]
    simp [getOutgoing, GraphStore.empty]
  have hi1 : ∀ n, getIncoming st n = attachedTo (targetEvents 0 ops) n := by
    intro n
    rw [hi n]
    simp [getIncoming, GraphStore.empty]
  refine ⟨ho1, hi1, hinv.1, hinv.2, ?_, ?_⟩
  · intro e n
    rw [ho1, count_attachedTo]
  · intro e n
    rw [hi1, count_attachedTo]

/-- The amended C10 applied to the calls of `rewireOps`. -/
theorem C10_adjacency_lists_record_attachments_witness :
    (∀ n, getOutgoing rewiredStore n = attachedTo (sourceEvents 0 rewireOps) n) ∧
      (∀ n, getIncoming rewiredStore n = attachedTo (targetEvents 0 rewireOps) n) ∧
      (∀ e n, getFrom rewiredStore e = some n → e ∈ getOutgoing rewiredStore n) ∧
      (∀ e n, getTo rewiredStore e = some n → e ∈ getIncoming rewiredStore n) ∧
      (∀ e n, (getOutgoing rewiredStore n).count e = (sourceEvents 0 rewireOps).count (e, n)) ∧
      (∀ e n, (getIncoming rewiredStore n).count e = (targetEvents 0 rewireOps).count (e, n)) :=
  C10_adjacency_lists_record_attachments rewireOps rewiredStore (by decide)

theorem nodup_getElem?_inj {L : List NodeRef} (h : L.Nodup) {i j : Nat} {x : NodeRef}
    (hi : L[i]? = some x) (hj : L[j]? = some x) : i = j := by
  obtain ⟨hi1, hi2⟩ := List.getElem?_eq_some.1 hi
  obtain ⟨hj1, hj2⟩ := List.getElem?_eq_some.1 hj
  exact (List.Nodup.getElem_inj_iff h).1 (hi2.trans hj2.symm)

theorem getElem?_lt {L : List NodeRef} {i : Nat} {x : NodeRef} (h : L[i]? = some x) :
    i < L.length := (List.getElem?_eq_some.1 h).1

theorem unlinkBefore_spec {s : FringeSearch} {L : List NodeRef} {ex : Option NodeRef}
    {k : Nat} {x : NodeRef} (hF : FringeIsBut s L ex) (hk : L[k]? = some x) :
    ∃ s1, unlinkBefore s x = .ok s1 ∧ s1.fringeEnd = s.fringeEnd ∧
      s1.fringeStart = (if k = 0 then L[1]? else s.fringeStart) ∧ SameBinding s s1 ∧
      ∀ z, s1.data z =
        if k ≠ 0 ∧ L[k - 1]? = some z then
          (s.data z).map (fun d => { d with fringeNext := L[k + 1]? })
        else s.data z := by
  obtain ⟨hnd, hfs, hfe, hW3, hW4⟩ := hF
  obtain ⟨dx, hdx, htx, hnx, hpx⟩ := hW3 k x hk
  have hklt := getElem?_lt hk
  unfold unlinkBefore
  by_cases hk0 : k = 0
  · subst hk0
    have hst : some x = s.fringeStart := by
      rw [hfs, List.head?_eq_getElem?, hk]
    refine ⟨{ s with fringeStart := dx.fringeNext }, ?_, rfl, ?_, ⟨rfl, rfl⟩, ?_⟩
    · simp [FringeSearch.get, deref, hdx, hst, bind, Except.bind, pure, Except.pure]
    · simp [hnx]
    · intro z; simp
  · have hst : ¬ (some x = s.fringeStart) := by
      intro h
      rw [hfs, List.head?_eq_getElem?] at h
      exact hk0 (nodup_getElem?_inj hnd hk h.symm)
    have hp1 : k - 1 < L.length := by omega
    obtain ⟨p, hp⟩ : ∃ p, L[k - 1]? = some p := ⟨L[k - 1], List.getElem?_eq_getElem hp1⟩
    obtain ⟨dp, hdp, -, -, -⟩ := hW3 (k - 1) p hp
    have hpx2 : dx.fringePrevious = some p := by rw [hpx, if_neg hk0, hp]
    refine ⟨s.setData p { dp with fringeNext := dx.fringeNext }, ?_, rfl, ?_, ⟨rfl, rfl⟩, ?_⟩
    · simp [FringeSearch.get, deref, hdx, hst, hpx2, hdp, bind, Except.bind, pure, Except.pure]
    · simp [hk0, FringeSearch.setData]
    · intro z
      by_cases hz : z = p
      · subst hz
        simp [FringeSearch.setData, hk0, hp, hdp, hnx]
      · have : ¬ (L[k - 1]? = some z) := by
          rw [hp]; intro h; exact hz (Option.some.inj h).symm
        simp [FringeSearch.setData, hz, this]
theorem unlinkAfter_spec {s1 : FringeSearch} {L : List NodeRef} {k : Nat} {x : NodeRef}
    {dx : FringeSearchData} (hnd : L.Nodup) (hk : L[k]? = some x)
    (hfe : s1.fringeEnd = L.getLast?) (hdx : s1.data x = some dx)
    (hnx : dx.fringeNext = L[k + 1]?)
    (hpx : dx.fringePrevious = if k = 0 then none else L[k - 1]?)
    (hn : ∀ n, L[k + 1]? = some n → ∃ dn, s1.data n = some dn) :
    ∃ s2, unlinkAfter s1 x = .ok s2 ∧ s2.fringeStart = s1.fringeStart ∧
      s2.fringeEnd =
        (if k + 1 = L.length then (if k = 0 then none else L[k - 1]?) else s1.fringeEnd) ∧
      SameBinding s1 s2 ∧
      ∀ z, s2.data z =
        if L[k + 1]? = some z then
          (s1.data z).map
            (fun d => { d with fringePrevious := if k = 0 then none else L[k - 1]? })
        else s1.data z := by
  have hklt := getElem?_lt hk
  unfold unlinkAfter
  by_cases hkl : k + 1 = L.length
  · have hen : some x = s1.fringeEnd := by
      rw [hfe, List.getLast?_eq_getElem?]
      have : L.length - 1 = k := by omega
      rw [this, hk]
    have hnone : L[k + 1]? = none := List.getElem?_eq_none (by omega)
    refine ⟨{ s1 with fringeEnd := dx.fringePrevious }, ?_, rfl, ?_, ⟨rfl, rfl⟩, ?_⟩
    · simp [FringeSearch.get, deref, hdx, hen, bind, Except.bind, pure, Except.pure]
    · simp [hkl, hpx]
    · intro z; simp [hnone]
  · have hen : ¬ (some x = s1.fringeEnd) := by
      intro h
      rw [hfe, List.getLast?_eq_getElem?] at h
      have := nodup_getElem?_inj hnd hk h.symm
      omega
    have hn1 : k + 1 < L.length := by omega
    obtain ⟨n, hnn⟩ : ∃ n, L[k + 1]? = some n := ⟨L[k + 1], List.getElem?_eq_getElem hn1⟩
    obtain ⟨dn, hdn⟩ := hn n hnn
    have hnx2 : dx.fringeNext = some n := by rw [hnx, hnn]
    refine ⟨s1.setData n { dn with fringePrevious := dx.fringePrevious }, ?_, rfl, ?_,
      ⟨rfl, rfl⟩, ?_⟩
    · simp [FringeSearch.get, deref, hdx, hen, hnx2, hdn, bind, Except.bind, pure, Except.pure]
    · simp [hkl, FringeSearch.setData]
    · intro z
      by_cases hz : z = n
      · subst hz
        simp [FringeSearch.setData, hnn, hdn, hpx]
      · have : ¬ (L[k + 1]? = some z) := by
          rw [hnn]; intro h; exact hz (Option.some.inj h).symm
        simp [FringeSearch.setData, hz, this]
theorem mem_of_mem_eraseIdx {L : List NodeRef} {k : Nat} {z : NodeRef}
    (h : z ∈ L.eraseIdx k) : z ∈ L :=
  (List.eraseIdx_sublist L k).subset h

theorem mem_eraseIdx_of_ne {L : List NodeRef} {k : Nat} {x z : NodeRef}
    (hk : L[k]? = some x) (hz : z ∈ L) (hne : z ≠ x) : z ∈ L.eraseIdx k := by
  obtain ⟨j, hj⟩ := List.mem_iff_getElem?.1 hz
  rw [List.mem_iff_getElem?]
  rcases Nat.lt_trichotomy j k with h | h | h
  · exact ⟨j, by rw [List.getElem?_eraseIdx, if_pos h, hj]⟩
  · subst h
    rw [hk] at hj
    exact absurd (Option.some.inj hj).symm hne
  · refine ⟨j - 1, ?_⟩
    rw [List.getElem?_eraseIdx, if_neg (by omega)]
    have : j - 1 + 1 = j := by omega
    rw [this, hj]

theorem removeFromFringe_member {s : FringeSearch} {L : List NodeRef} {k : Nat} {x : NodeRef}
    (hF : FringeIs s L) (hk : L[k]? = some x) :
    ∃ s2, removeFromFringe s x = .ok s2 ∧ FringeIsBut s2 (L.eraseIdx k) (some x) ∧
      s2.data x = s.data x ∧ SameBinding s s2 ∧ Agree payload s s2 := by
  obtain ⟨s1, h1, hfe1, hfs1, hb1, hd1⟩ := unlinkBefore_spec hF hk
  obtain ⟨hnd, hfs, hfe, hW3, hW4⟩ := hF
  obtain ⟨dx, hdx, htx, hnx, hpx⟩ := hW3 k x hk
  have hklt := getElem?_lt hk
  have hx1 : s1.data x = some dx := by
    rw [hd1 x, if_neg, hdx]
    rintro ⟨hk0, hp⟩
    have := nodup_getElem?_inj hnd hk hp
    omega
  have hn1 : ∀ n, L[k + 1]? = some n → ∃ dn, s1.data n = some dn := by
    intro n hn
    obtain ⟨dn, hdn, -⟩ := hW3 (k + 1) n hn
    rw [hd1 n, hdn]
    split_ifs <;> exact ⟨_, rfl⟩
  obtain ⟨s2, h2, hfs2, hfe2, hb2, hd2⟩ :=
    unlinkAfter_spec hnd hk (hfe1.trans hfe) hx1 hnx hpx hn1
  have hsid : s2.searchID = s.searchID := hb2.2.trans hb1.2
  refine ⟨s2, ?_, ⟨?_, ?_, ?_, ?_, ?_⟩, ?_, hb1.trans hb2, ?_⟩
  · unfold removeFromFringe
    exact bind_eq_ok.2 ⟨s1, h1, h2⟩
  · exact hnd.sublist (List.eraseIdx_sublist L k)
  · rw [hfs2, hfs1, hfs, List.head?_eq_getElem?, List.head?_eq_getElem?, List.getElem?_eraseIdx]
    by_cases hk0 : k = 0
    · simp [hk0]
    · have : 0 < k := by omega
      simp [hk0, this]
  · rw [hfe2, hfe1, hfe, List.getLast?_eq_getElem?, List.getLast?_eq_getElem?,
      List.getElem?_eraseIdx, List.length_eraseIdx, if_pos hklt]
    by_cases hkl : k + 1 = L.length
    · by_cases hk0 : k = 0
      · have : L.length = 1 := by omega
        simp [hkl, hk0, this]
      · have h3 : L.length - 1 - 1 < k := by omega
        have h4 : L.length - 1 - 1 = k - 1 := by omega
        have h5 : 0 < k := by omega
        simp [hkl, hk0, h3, h4, h5]
    · have h3 : ¬ (L.length - 1 - 1 < k) := by omega
      have h4 : L.length - 1 - 1 + 1 = L.length - 1 := by omega
      simp [hkl, h3, h4]
  · intro i y hy
    rw [List.getElem?_eraseIdx] at hy
    by_cases hik : i < k
    · rw [if_pos hik] at hy
      obtain ⟨d, hd, ht, hn, hp⟩ := hW3 i y hy
      have hne1 : ¬ (L[k + 1]? = some y) := by
        intro h
        have := nodup_getElem?_inj hnd hy h
        omega
      have hprev : (if i = 0 then none else (L.eraseIdx k)[i - 1]?) =
          if i = 0 then none else L[i - 1]? := by
        by_cases hi0 : i = 0
        · simp [hi0]
        · rw [if_neg hi0, if_neg hi0, List.getElem?_eraseIdx, if_pos (by omega)]
      by_cases hik1 : i + 1 = k
      · have hpy : k ≠ 0 ∧ L[k - 1]? = some y := by
          refine ⟨by omega, ?_⟩
          have : k - 1 = i := by omega
          rw [this, hy]
        refine ⟨{ d with fringeNext := L[k + 1]? }, ?_, ?_, ?_, ?_⟩
        · rw [hd2 y, if_neg hne1, hd1 y, if_pos hpy, hd]; rfl
        · simpa [hsid] using ht
        · rw [List.getElem?_eraseIdx, if_neg (by omega)]
          have : i + 1 + 1 = k + 1 := by omega
          simp [this]
        · rw [hprev]; exact hp
      · have hpy : ¬ (k ≠ 0 ∧ L[k - 1]? = some y) := by
          rintro ⟨hk0, h⟩
          have := nodup_getElem?_inj hnd hy h
          omega
        refine ⟨d, ?_, ?_, ?_, ?_⟩
        · rw [hd2 y, if_neg hne1, hd1 y, if_neg hpy, hd]
        · simpa [hsid] using ht
        · rw [List.getElem?_eraseIdx, if_pos (by omega)]; exact hn
        · rw [hprev]; exact hp
    · rw [if_neg hik] at hy
      obtain ⟨d, hd, ht, hn, hp⟩ := hW3 (i + 1) y hy
      have hpy : ¬ (k ≠ 0 ∧ L[k - 1]? = some y) := by
        rintro ⟨hk0, h⟩
        have := nodup_getElem?_inj hnd hy h
        omega
      have hnext : (L.eraseIdx k)[i + 1]? = L[i + 1 + 1]? := by
        rw [List.getElem?_eraseIdx, if_neg (by omega)]
      simp only [Nat.add_sub_cancel, Nat.succ_ne_zero, if_false] at hp
      by_cases hik1 : i = k
      · have hny : L[k + 1]? = some y := by rw [← hik1]; exact hy
        refine ⟨{ d with fringePrevious := if k = 0 then none else L[k - 1]? }, ?_, ?_, ?_, ?_⟩
        · rw [hd2 y, if_pos hny, hd1 y, if_neg hpy, hd]; rfl
        · simpa [hsid] using ht
        · rw [hnext]; exact hn
        · subst hik1
          by_cases hi0 : i = 0
          · simp [hi0]
          · simp only [hi0, if_false]
            rw [List.getElem?_eraseIdx, if_pos (by omega)]
      · have hny : ¬ (L[k + 1]? = some y) := by
          intro h
          have := nodup_getElem?_inj hnd hy h
          omega
        refine ⟨d, ?_, ?_, ?_, ?_⟩
        · rw [hd2 y, if_neg hny, hd1 y, if_neg hpy, hd]
        · simpa [hsid] using ht
        · rw [hnext]; exact hn
        · have hi0 : i ≠ 0 := by omega
          rw [if_neg hi0, List.getElem?_eraseIdx, if_neg (by omega)]
          have : i - 1 + 1 = i := by omega
          rw [this]; exact hp
  · intro z d hz ht hzL hzx
    have hzx2 : z ≠ x := fun h => hzx (by rw [h])
    have hzL2 : z ∉ L := fun h => hzL (mem_eraseIdx_of_ne hk h hzx2)
    have hne1 : ¬ (L[k + 1]? = some z) := fun h => hzL2 (List.mem_iff_getElem?.2 ⟨_, h⟩)
    have hne2 : ¬ (k ≠ 0 ∧ L[k - 1]? = some z) :=
      fun h => hzL2 (List.mem_iff_getElem?.2 ⟨_, h.2⟩)
    rw [hd2 z, if_neg hne1, hd1 z, if_neg hne2] at hz
    exact hW4 z d hz (by rw [ht, hsid]) hzL2 (by simp)
  · rw [hd2 x, if_neg, hx1, hdx]
    intro h
    have := nodup_getElem?_inj hnd hk h
    omega
  · intro z
    rw [hd2 z, hd1 z]
    split_ifs <;> cases s.data z <;> simp [payload]

theorem removeFromFringe_nonmember {s : FringeSearch} {L : List NodeRef} {x : NodeRef}
    {dx : FringeSearchData} (hfs : s.fringeStart = L.head?) (hfe : s.fringeEnd = L.getLast?)
    (hx : x ∉ L) (hdx : s.data x = some dx) (hn : dx.fringeNext = none)
    (hp : dx.fringePrevious = none) : removeFromFringe s x = .ok s := by
  have h1 : ¬ (some x = s.fringeStart) := by
    intro h
    rw [hfs] at h
    exact hx (List.mem_of_mem_head? h.symm)
  have h2 : ¬ (some x = s.fringeEnd) := by
    intro h
    rw [hfe] at h
    exact hx (List.mem_of_mem_getLast? h.symm)
  simp [removeFromFringe, unlinkBefore, unlinkAfter, FringeSearch.get, deref, hdx, h1, h2, hn, hp,
    bind, Except.bind, pure, Except.pure]

theorem fringeIsBut_setData {s : FringeSearch} {L : List NodeRef} {ex : Option NodeRef}
    (hF : FringeIsBut s L ex) {x : NodeRef} {d d1 : FringeSearchData} (hd : s.data x = some d)
    (hn : d1.fringeNext = d.fringeNext) (hp : d1.fringePrevious = d.fringePrevious)
    (ht : d1.searchID = d.searchID) : FringeIsBut (s.setData x d1) L ex := by
  obtain ⟨hnd, hfs, hfe, hW3, hW4⟩ := hF
  refine ⟨hnd, hfs, hfe, ?_, ?_⟩
  · intro i y hy
    obtain ⟨dy, hdy, hty, hny, hpy⟩ := hW3 i y hy
    by_cases hyx : y = x
    · subst hyx
      rw [hd] at hdy
      cases hdy
      exact ⟨d1, by simp [FringeSearch.setData], by rw [ht]; exact hty, by rw [hn]; exact hny,
        by rw [hp]; exact hpy⟩
    · exact ⟨dy, by simp [FringeSearch.setData, hyx, hdy], hty, hny, hpy⟩
  · intro z dz hz htz hzL hzex
    by_cases hzx : z = x
    · subst hzx
      simp [FringeSearch.setData] at hz
      subst hz
      rw [hn, hp]
      exact hW4 z d hd (by rw [← ht]; exact htz) hzL hzex
    · simp [FringeSearch.setData, hzx] at hz
      exact hW4 z dz hz htz hzL hzex

theorem fringeIsBut_allocate {s : FringeSearch} {L : List NodeRef} {ex : Option NodeRef}
    (hF : FringeIsBut s L ex) {x : NodeRef}
    (hx : ∀ d, s.data x = some d → d.searchID ≠ s.searchID) :
    FringeIsBut (allocateSearchData s x) L ex ∧ x ∉ L := by
  obtain ⟨hnd, hfs, hfe, hW3, hW4⟩ := hF
  have hxL : x ∉ L := by
    intro h
    obtain ⟨i, hi⟩ := List.mem_iff_getElem?.1 h
    obtain ⟨d, hd, ht, -⟩ := hW3 i x hi
    exact hx d hd ht
  refine ⟨⟨hnd, hfs, hfe, ?_, ?_⟩, hxL⟩
  · intro i y hy
    obtain ⟨dy, hdy, hty, hny, hpy⟩ := hW3 i y hy
    have hyx : y ≠ x := fun h => hxL (h ▸ List.mem_iff_getElem?.2 ⟨i, hy⟩)
    exact ⟨dy, by simp [allocateSearchData, FringeSearch.setData, hyx, hdy], hty, hny, hpy⟩
  · intro z dz hz htz hzL hzex
    by_cases hzx : z = x
    · subst hzx
      simp [allocateSearchData, FringeSearch.setData] at hz
      subst hz
      exact ⟨rfl, rfl⟩
    · simp [allocateSearchData, FringeSearch.setData, hzx] at hz
      exact hW4 z dz hz htz hzL hzex

theorem getElem?_snoc (L : List NodeRef) (c : NodeRef) (i : Nat) :
    (L ++ [c])[i]? = if i < L.length then L[i]? else if i = L.length then some c else none := by
  rw [getElem?_append_one]
  by_cases h1 : i < L.length
  · simp [h1, Nat.ne_of_lt h1]
  · by_cases h2 : i = L.length
    · simp [h2]
    · simp [h1, h2, List.getElem?_eq_none (Nat.le_of_not_lt h1)]

theorem appendToFringe_spec {s : FringeSearch} {L : List NodeRef} {c : NodeRef}
    {dc : FringeSearchData} (hF : FringeIsBut s L (some c)) (hL : L ≠ []) (hc : c ∉ L)
    (hdc : s.data c = some dc) (htc : dc.searchID = s.searchID) :
    ∃ s1, appendToFringe s c = .ok s1 ∧ FringeIs s1 (L ++ [c]) ∧ SameBinding s s1 ∧
      Agree payload s s1 := by
  obtain ⟨hnd, hfs, hfe, hW3, hW4⟩ := hF
  have hlen : 0 < L.length := List.length_pos.2 hL
  have hl1 : L.length - 1 < L.length := by omega
  obtain ⟨e, he⟩ : ∃ e, L[L.length - 1]? = some e := ⟨_, List.getElem?_eq_getElem hl1⟩
  obtain ⟨de, hde, hte, hne, hpe⟩ := hW3 _ e he
  have hfe2 : s.fringeEnd = some e := by rw [hfe, List.getLast?_eq_getElem?, he]
  have hec : c ≠ e := fun h => hc (h ▸ List.mem_iff_getElem?.2 ⟨_, he⟩)
  refine ⟨{ (s.setData e { de with fringeNext := some c }).setData c
      { dc with fringePrevious := some e, fringeNext := none } with fringeEnd := some c },
    ?_, ⟨?_, ?_, ?_, ?_, ?_⟩, ⟨rfl, rfl⟩, ?_⟩
  · simp [appendToFringe, linkAfterEnd, hfe2, FringeSearch.get, deref, hde, hdc,
      FringeSearch.setData, hec, bind, Except.bind, pure, Except.pure]
  · exact List.Nodup.append hnd (List.nodup_singleton c) (by simpa using hc)
  · simp only [FringeSearch.setData]
    rw [hfs]
    cases L with
    | nil => exact absurd rfl hL
    | cons a t => rfl
  · simp [FringeSearch.setData]
  · intro i y hy
    rw [getElem?_snoc] at hy
    by_cases hi : i < L.length
    · rw [if_pos hi] at hy
      obtain ⟨dy, hdy, hty, hny, hpy⟩ := hW3 i y hy
      have hyc : y ≠ c := fun h => hc (h ▸ List.mem_iff_getElem?.2 ⟨i, hy⟩)
      have hprev : (if i = 0 then none else (L ++ [c])[i - 1]?) =
          if i = 0 then none else L[i - 1]? := by
        by_cases hi0 : i = 0
        · simp [hi0]
        · rw [if_neg hi0, if_neg hi0, getElem?_snoc, if_pos (by omega)]
      by_cases hil : i = L.length - 1
      · have hye : y = e := by
          rw [hil, he] at hy
          exact (Option.some.inj hy).symm
        subst hye
        rw [hde] at hdy
        cases hdy
        refine ⟨{ de with fringeNext := some c }, ?_, hte, ?_, ?_⟩
        · simp [FringeSearch.setData, hyc]
        · rw [getElem?_snoc, if_neg (by omega), if_pos (by omega)]
        · rw [hprev]; exact hpy
      · have hye : y ≠ e := by
          intro h
          rw [h] at hy
          exact hil (nodup_getElem?_inj hnd hy he)
        refine ⟨dy, ?_, hty, ?_, ?_⟩
        · simp [FringeSearch.setData, hyc, hye, hdy]
        · rw [getElem?_snoc, if_pos (by omega)]; exact hny
        · rw [hprev]; exact hpy
    · rw [if_neg hi] at hy
      by_cases hil : i = L.length
      · rw [if_pos hil] at hy
        cases hy
        refine ⟨{ dc with fringePrevious := some e, fringeNext := none }, ?_, htc, ?_, ?_⟩
        · simp [FringeSearch.setData]
        · rw [getElem?_snoc, if_neg (by omega), if_neg (by omega)]
        · have hi0 : i ≠ 0 := by omega
          rw [if_neg hi0, getElem?_snoc, if_pos (by omega), hil, he]
      · rw [if_neg hil] at hy
        cases hy
  · intro z dz hz htz hzL hzex
    have hzc : z ≠ c := fun h => hzL (by simp [h])
    have hzL2 : z ∉ L := fun h => hzL (by simp [h])
    have hze : z ≠ e := fun h => hzL2 (h ▸ List.mem_iff_getElem?.2 ⟨_, he⟩)
    simp [FringeSearch.setData, hzc, hze] at hz
    exact hW4 z dz hz htz hzL2 (by simpa using hzc)
  · intro z
    simp only [FringeSearch.setData]
    by_cases hzc : z = c
    · subst hzc
      simp [hdc, payload]
    · by_cases hze : z = e
      · subst hze
        simp [hzc, hde, payload]
      · simp [hzc, hze]

theorem eraseIdx_eq_erase {L : List NodeRef} (hnd : L.Nodup) :
    ∀ {k : Nat} {x : NodeRef}, L[k]? = some x → L.eraseIdx k = L.erase x := by
  induction L with
  | nil => intro k x h; simp at h
  | cons a t ih =>
    intro k x h
    cases k with
    | zero =>
      simp at h
      subst h
      simp
    | succ k =>
      simp at h
      have hx : x ∈ t := List.mem_iff_getElem?.2 ⟨k, h⟩
      have hax : a ≠ x := by
        intro hax
        subst hax
        exact (List.nodup_cons.1 hnd).1 hx
      rw [List.eraseIdx_cons_succ, List.erase_cons_tail (by simpa using hax),
        ih (List.nodup_cons.1 hnd).2 h]

theorem fringeIsBut_weaken {s : FringeSearch} {L : List NodeRef} (hF : FringeIs s L)
    (ex : Option NodeRef) : FringeIsBut s L ex := by
  obtain ⟨hnd, hfs, hfe, hW3, hW4⟩ := hF
  exact ⟨hnd, hfs, hfe, hW3, fun z dz hz htz hzL _ => hW4 z dz hz htz hzL (by simp)⟩

theorem agree_refl {α : Type} (view : FringeSearchData → α) (s : FringeSearch) :
    Agree view s s := fun _ => rfl

theorem agree_trans {α : Type} {view : FringeSearchData → α} {a b c : FringeSearch}
    (h1 : Agree view a b) (h2 : Agree view b c) : Agree view a c :=
  fun n => (h2 n).trans (h1 n)

theorem removeFromFringe_fringe {s s3 : FringeSearch} {L : List NodeRef} {x : NodeRef}
    {dx : FringeSearchData} (hF : FringeIs s L) (hdx : s.data x = some dx)
    (htx : dx.searchID = s.searchID) (h : removeFromFringe s x = .ok s3) :
    FringeIsBut s3 (L.erase x) (some x) ∧ s3.data x = s.data x ∧ SameBinding s s3 ∧
      Agree payload s s3 := by
  by_cases hx : x ∈ L
  · obtain ⟨k, hk⟩ := List.mem_iff_getElem?.1 hx
    obtain ⟨s2, h2, hF2, hd2, hb2, ha2⟩ := removeFromFringe_member hF hk
    rw [h2] at h
    cases h
    rw [← eraseIdx_eq_erase hF.1 hk]
    exact ⟨hF2, hd2, hb2, ha2⟩
  · have hlinks := hF.2.2.2.2 x dx hdx htx hx (by simp)
    have h2 := removeFromFringe_nonmember hF.2.1 hF.2.2.1 hx hdx hlinks.1 hlinks.2
    rw [h2] at h
    cases h
    rw [List.erase_of_not_mem hx]
    exact ⟨fringeIsBut_weaken hF _, rfl, ⟨rfl, rfl⟩, agree_refl _ _⟩

theorem fringeIs_data {s : FringeSearch} {L : List NodeRef} {ex : Option NodeRef}
    (hF : FringeIsBut s L ex) {x : NodeRef} (hx : x ∈ L) :
    ∃ d, s.data x = some d ∧ d.searchID = s.searchID := by
  obtain ⟨i, hi⟩ := List.mem_iff_getElem?.1 hx
  obtain ⟨d, hd, ht, -⟩ := hF.2.2.2.1 i x hi
  exact ⟨d, hd, ht⟩

theorem considerChild_spec {s s2 : FringeSearch} {L : List NodeRef} {current child : NodeRef}
    {g : edge_weight_t} {cd chd : FringeSearchData} (hF : FringeIs s L)
    (hcd : s.data current = some cd) (htcd : cd.searchID = s.searchID) (hgt : cd.g < g)
    (hcons : considerChild s child g = some s2) (hchd : s2.data child = some chd) :
    child ≠ current ∧ FringeIs s2 L ∧ s2.searchID = s.searchID ∧ s2.start = s.start ∧
      (∀ z, z ≠ child → s2.data z = s.data z) ∧ chd.searchID = s.searchID ∧
      (chd.h = -1 ∨ ∃ d0, s.data child = some d0 ∧ d0.searchID = s.searchID ∧ chd.h = d0.h) ∧
      (∀ d0, s.data child = some d0 → d0.searchID = s.searchID → g ≤ d0.g) := by
  unfold considerChild at hcons
  have halloc : (∀ d, s.data child = some d → d.searchID ≠ s.searchID) →
      s2 = allocateSearchData s child →
      child ≠ current ∧ FringeIs s2 L ∧ s2.searchID = s.searchID ∧ s2.start = s.start ∧
      (∀ z, z ≠ child → s2.data z = s.data z) ∧ chd.searchID = s.searchID ∧
      (chd.h = -1 ∨ ∃ d0, s.data child = some d0 ∧ d0.searchID = s.searchID ∧ chd.h = d0.h) ∧
      (∀ d0, s.data child = some d0 → d0.searchID = s.searchID → g ≤ d0.g) := by
    intro hstale hs2
    subst hs2
    have hne : child ≠ current := by
      intro hcc
      subst hcc
      exact hstale cd hcd htcd
    have hchd2 : chd =
        { previous := none, g := 0, h := -1, fringeNext := none, fringePrevious := none,
          searchID := s.searchID } := by
      simp [allocateSearchData, FringeSearch.setData] at hchd
      exact hchd.symm
    refine ⟨hne, (fringeIsBut_allocate hF hstale).1, rfl, rfl, ?_, ?_, ?_, ?_⟩
    · intro z hz
      simp [allocateSearchData, FringeSearch.setData, hz]
    · rw [hchd2]
    · left; rw [hchd2]
    · intro d0 hd0 ht0
      exact absurd ht0 (hstale d0 hd0)
  cases hdc : s.data child with
  | none =>
    rw [hdc] at hcons halloc
    simp only [Option.some.injEq] at hcons
    exact halloc (by intro d hd; cases hd) hcons.symm
  | some d0 =>
    rw [hdc] at hcons halloc
    simp only at hcons
    by_cases ht0 : d0.searchID = s.searchID
    · rw [if_pos ht0] at hcons
      by_cases hgt2 : g > d0.g
      · rw [if_pos hgt2] at hcons
        cases hcons
      · rw [if_neg hgt2] at hcons
        simp only [Option.some.injEq] at hcons
        subst hcons
        rw [hdc] at hchd
        cases hchd
        have hne : child ≠ current := by
          intro hcc
          subst hcc
          rw [hcd] at hdc
          cases hdc
          exact hgt2 hgt
        refine ⟨hne, hF, rfl, rfl, fun z _ => rfl, ht0, Or.inr ⟨_, rfl, ht0, rfl⟩, ?_⟩
        intro d1 hd1 _
        cases hd1
        exact not_lt.1 hgt2
    · rw [if_neg ht0] at hcons
      simp only [Option.some.injEq] at hcons
      exact halloc (by intro d hd; cases hd; exact ht0) hcons.symm

/-- What one accepted edge does: the child is moved to the tail of the fringe with the new
cost and predecessor; nothing else changes but fringe links. -/
theorem expandEdge_spec {G : Graph} {s s1 : FringeSearch} {L : List NodeRef}
    {current : NodeRef} {edge : BaseFringeEdge} (hF : FringeIs s L) (hcur : current ∈ L)
    (hpos : 0 < G.calculateWeight edge (gOf s current))
    (h : expandEdge G s current edge = .ok s1) :
    s1 = s ∨
      ∃ child dc, edge.to_ = some child ∧ child ≠ current ∧
        FringeIs s1 (L.erase child ++ [child]) ∧ SameBinding s s1 ∧
        (∀ z, z ≠ child → (s1.data z).map payload = (s.data z).map payload) ∧
        s1.data child = some dc ∧ dc.searchID = s.searchID ∧
        dc.g = gOf s current + G.calculateWeight edge (gOf s current) ∧
        dc.previous = some current ∧
        (dc.h = -1 ∨ ∃ d0, s.data child = some d0 ∧ d0.searchID = s.searchID ∧ dc.h = d0.h) ∧
        (∀ d0, s.data child = some d0 → d0.searchID = s.searchID → dc.g ≤ d0.g) := by
  obtain ⟨cd, hcd, htcd⟩ := fringeIs_data hF hcur
  have hg : gOf s current = cd.g := by simp [gOf, hcd]
  rw [hg] at hpos ⊢
  unfold expandEdge at h
  obtain ⟨cd1, hcd1, h⟩ := bind_eq_ok.1 h
  rw [get_eq_ok, hcd] at hcd1
  cases hcd1
  obtain ⟨child, hchild, h⟩ := bind_eq_ok.1 h
  rw [deref_eq_ok] at hchild
  simp only at h
  cases hcons : considerChild s child (cd.g + G.calculateWeight edge cd.g) with
  | none =>
    rw [hcons] at h
    left
    simp only [pure, Except.pure, Except.ok.injEq] at h
    exact h.symm
  | some s2 =>
    rw [hcons] at h
    right
    simp only at h
    obtain ⟨chd, hchd, h⟩ := bind_eq_ok.1 h
    rw [get_eq_ok] at hchd
    obtain ⟨s3, h3, h4⟩ := bind_eq_ok.1 h
    obtain ⟨hne, hF2, hsid2, hst2, hsame2, htchd, hh, hle⟩ :=
      considerChild_spec hF hcd htcd (lt_add_of_pos_right _ hpos) hcons hchd
    generalize hnew :
      ({ chd with previous := some current, g := cd.g + G.calculateWeight edge cd.g } :
        FringeSearchData) = newData at h3
    have hF2b : FringeIs (s2.setData child newData) L := by
      subst hnew
      exact fringeIsBut_setData hF2 hchd rfl rfl rfl
    have hdata2b : (s2.setData child newData).data child = some newData := by
      simp [FringeSearch.setData]
    have htnew : newData.searchID = s.searchID := by
      subst hnew
      exact htchd
    obtain ⟨hF3, hd3, hb3, ha3⟩ := removeFromFringe_fringe hF2b hdata2b
      (by simpa [FringeSearch.setData, hsid2] using htnew) h3
    have hcurL : current ∈ L.erase child := (List.mem_erase_of_ne (Ne.symm hne)).2 hcur
    have hchildL : child ∉ L.erase child :=
      fun hmem => ((List.Nodup.mem_erase_iff hF.1).1 hmem).1 rfl
    obtain ⟨s4, h4b, hF4, hb4, ha4⟩ := appendToFringe_spec hF3 (List.ne_nil_of_mem hcurL) hchildL
      (hd3.trans hdata2b) (by rw [hb3.2]; simpa [FringeSearch.setData, hsid2] using htnew)
    rw [h4b] at h4
    cases h4
    have hb : SameBinding s s1 := by
      refine ⟨?_, ?_⟩
      · rw [hb4.1, hb3.1]; simpa [FringeSearch.setData] using hst2
      · rw [hb4.2, hb3.2]; simpa [FringeSearch.setData] using hsid2
    have hpay := ha4 child
    rw [ha3 child, hdata2b] at hpay
    cases hd4 : s1.data child with
    | none => rw [hd4] at hpay; simp at hpay
    | some dc =>
      rw [hd4] at hpay
      simp only [Option.map_some', Option.some.injEq, payload, Prod.mk.injEq] at hpay
      obtain ⟨hp1, hp2, hp3, hp4⟩ := hpay
      subst hnew
      simp only at hp1 hp2 hp3 hp4
      refine ⟨child, dc, hchild, hne, hF4, hb, ?_, hd4, by rw [hp4]; exact htchd, hp2, hp1,
        by rw [hp3]; exact hh, by rw [hp2]; exact hle⟩
      intro z hz
      rw [ha4 z, ha3 z]
      simp [FringeSearch.setData, hz, hsame2 z hz]

theorem dropBits_small (fuel m : Nat) (h : m < 2 ^ 24) : dropBits fuel m = 0 := by
  cases fuel with
  | zero => rfl
  | succ n => rw [dropBits, if_pos h]

/-- Below `2 ^ 24` the rounding leaves a non-negative integer as it is. -/
theorem roundFloat_of_small {x : Int} (h0 : 0 ≤ x) (h : x < 16777216) : roundFloat x = x := by
  have hm : x.natAbs < 2 ^ 24 := by omega
  have hnot : ¬ x < 0 := not_lt.2 h0
  have hy : x.natAbs < 2 ^ 128 := lt_trans hm (by decide)
  unfold roundFloat
  simp only [dropBits_small _ _ hm, pow_zero, Nat.div_one, Nat.mod_one, Nat.mul_zero, Nat.mul_one,
    if_neg hnot]
  have h1 : ¬ ((1 : Nat) < 0 ∨ (0 : Nat) = 1 ∧ x.natAbs % 2 = 1) := by omega
  rw [if_neg h1, if_pos hy]
  exact Int.natAbs_of_nonneg h0

/-- Float sums below `2 ^ 24` of non-negative integers are exact. -/
theorem fadd_of_small {a b : Int} (ha : 0 ≤ a) (hb : 0 ≤ b) (h : a + b < 16777216) :
    fadd a b = a + b := by
  have h1 : ¬ (FLT_INF ≤ a ∨ FLT_INF ≤ b) := by
    unfold FLT_INF edge_weight_t; omega
  have h2 : ¬ (a ≤ -FLT_INF ∨ b ≤ -FLT_INF) := by
    unfold FLT_INF edge_weight_t; omega
  rw [fadd, if_neg h1, if_neg h2]
  exact roundFloat_of_small (add_nonneg ha hb) h

/-- The cost that line 53 stores for a child in `floatGraph` is the float sum of the cost
of the expanded node and the weight of the edge. -/
theorem floatGraph_sum (out : NodeRef → List BaseFringeEdge) (edge : BaseFringeEdge)
    (g : edge_weight_t) :
    g + (floatGraph out).calculateWeight edge g = fadd g edge.weight := by
  simp [floatGraph, floatWeight]

/-- Where the sum stays below `2 ^ 24` the cost term of `floatGraph` is the weight of the
edge, as in `defaultGraph`. -/
theorem floatGraph_weight_of_small (out : NodeRef → List BaseFringeEdge)
    (edge : BaseFringeEdge) (g : edge_weight_t) (hg : 0 ≤ g) (hw : 0 ≤ edge.weight)
    (h : g + edge.weight < 16777216) :
    (floatGraph out).calculateWeight edge g = (defaultGraph out).calculateWeight edge g := by
  have := fadd_of_small hg hw h
  simp only [floatGraph, floatWeight, defaultGraph, defaultWeight, this]
  exact add_sub_cancel_left g edge.weight

theorem pos_edgesOf (l : List (NodeRef × NodeRef × edge_weight_t))
    (h : ∀ t ∈ l, 0 < t.2.2) : ∀ n, ∀ e ∈ edgesOf l n, 0 < e.weight := by
  intro n e he
  simp only [edgesOf, List.mem_map, List.mem_filter] at he
  obtain ⟨t, ⟨ht, -⟩, rfl⟩ := he
  exact h t ht

/-- C13: with the default policies the heuristic of every pair of nodes is 0 and traversing
an edge costs its static weight whatever the cost to its source, also for the graph read
from a store; so the value `f` of a node whose cached `h` is the sentinel or the cached 0
is its `g`. -/
theorem C13_default_policies (out : NodeRef → List BaseFringeEdge) (st : GraphStore) :
    (∀ a b, (defaultGraph out).calculateHeuristic a b = 0) ∧
      (∀ e c, (defaultGraph out).calculateWeight e c = e.weight) ∧
      (∀ a b, st.toGraph.calculateHeuristic a b = 0) ∧
      (∀ e c, st.toGraph.calculateWeight e c = e.weight) ∧
      (∀ (target : NodeRef) (s : FringeSearch) (node : NodeRef) (d : FringeSearchData),
        s.data node = some d → d.h < 0 ∨ d.h = 0 →
          fValue (defaultGraph out) target s node = .ok d.g) := by
  refine ⟨fun _ _ => rfl, fun _ _ => rfl, fun _ _ => rfl, fun _ _ => rfl, ?_⟩
  intro target s node d hd hh
  unfold fValue evaluate
  rcases hh with hh | hh
  · have : ¬ (d.h ≥ 0) := not_le.2 hh
    simp [FringeSearch.get, deref, hd, this, defaultGraph, defaultHeuristic, bind, Except.bind,
      pure, Except.pure, Except.map]
  · simp [FringeSearch.get, deref, hd, hh, bind, Except.bind, pure, Except.pure, Except.map]

/-- C13 applied to the start node right after binding, whose `h` is the sentinel -1. -/
theorem C13_default_policies_witness :
    fValue (defaultGraph (edgesOf [(0, 1, 1)])) 1 (FringeSearch.bound 0 noData 0) 0 = .ok 0 :=
  (C13_default_policies (edgesOf [(0, 1, 1)]) GraphStore.empty).2.2.2.2 1
    (FringeSearch.bound 0 noData 0) 0 _ (setStartingNode_data_start _ 0) (Or.inl (by decide))

/-! ### C14: what `reset` writes -/

/-- C14: `reset(start)` makes `start` the start node, gives the engine the generation drawn
from the counter, makes `start` the head and the tail of the fringe, sets the search data
of `start` to predecessor none, g = 0, h = -1 (not computed), both fringe links none and
the new generation as tag, and leaves the search data of every other node as it was. -/
theorem C14_reset_frame (s : FringeSearch) (nextSearchID : Nat) (start : NodeRef) :
    (reset s nextSearchID start).1.start = start ∧
      (reset s nextSearchID start).1.searchID = nextSearchID ∧
      (reset s nextSearchID start).2 = (nextSearchID + 1) % SIZE_MOD ∧
      (reset s nextSearchID start).1.fringeStart = some start ∧
      (reset s nextSearchID start).1.fringeEnd = some start ∧
      (reset s nextSearchID start).1.data start =
        some { previous := none, g := 0, h := -1, fringeNext := none, fringePrevious := none,
               searchID := nextSearchID } ∧
      ∀ n, n ≠ start → (reset s nextSearchID start).1.data n = s.data n := by
  refine ⟨rfl, rfl, rfl, rfl, rfl, ?_, ?_⟩
  · simp [reset, setStartingNode, allocateSearchData, FringeSearch.setData]
  · intro n hn
    simp [reset, setStartingNode, allocateSearchData, FringeSearch.setData, hn]

/-! ### C12: the four-argument edge constructor -/

theorem addOutgoing_ok (st : GraphStore) (n : NodeRef) (e : EdgeRef)
    (hn : n < st.nodes.length) :
    ∃ st1, addOutgoing st n e = .ok st1 ∧ st1.nodes.length = st.nodes.length := by
  obtain ⟨nd, hnd⟩ : ∃ nd, st.nodes[n]? = some nd := ⟨st.nodes[n], List.getElem?_eq_getElem hn⟩
  refine ⟨{ st with nodes := st.nodes.set n { nd with outgoing := nd.outgoing ++ [e] } }, ?_, ?_⟩
  · simp only [addOutgoing, hnd, deref, bind, Except.bind, pure, Except.pure]
  · simp

theorem addIncoming_ok (st : GraphStore) (n : NodeRef) (e : EdgeRef)
    (hn : n < st.nodes.length) :
    ∃ st1, addIncoming st n e = .ok st1 ∧ st1.nodes.length = st.nodes.length := by
  obtain ⟨nd, hnd⟩ : ∃ nd, st.nodes[n]? = some nd := ⟨st.nodes[n], List.getElem?_eq_getElem hn⟩
  refine ⟨{ st with nodes := st.nodes.set n { nd with incoming := nd.incoming ++ [e] } }, ?_, ?_⟩
  · simp only [addIncoming, hnd, deref, bind, Except.bind, pure, Except.pure]
  · simp

/-- C12: for nodes `source` and `target` of the store the constructor
`BaseFringeEdge(id, source, target, weight)` returns a new edge whose `getFrom`, `getTo`
and `getWeight` are the arguments, appends it at the end of the outgoing list of `source`
and of the incoming list of `target` (what was listed before stays in front, in its order
and with its repetitions), leaves every other adjacency list as it was and touches no
other edge. -/
theorem C12_edge_constructor_attaches (st : GraphStore) (id : Nat) (source target : NodeRef)
    (weight : edge_weight_t) (hs : source < st.nodes.length) (ht : target < st.nodes.length) :
    ∃ st1, newEdgeBetween st id source target weight = .ok (st1, st.edges.length) ∧
      getFrom st1 st.edges.length = some source ∧
      getTo st1 st.edges.length = some target ∧
      getWeight st1 st.edges.length = some weight ∧
      (∀ m, getOutgoing st1 m =
        getOutgoing st m ++ (if m = source then [st.edges.length] else [])) ∧
      (∀ m, getIncoming st1 m =
        getIncoming st m ++ (if m = target then [st.edges.length] else [])) ∧
      (∀ e, e < st.edges.length → st1.edges[e]? = st.edges[e]?) := by
  obtain ⟨st2, h2, hlen2⟩ := addOutgoing_ok
    { st with
      edges := st.edges ++ [{ id := id, from_ := some source, to_ := some target, weight := weight }] }
    source st.edges.length hs
  obtain ⟨st3, h3, -⟩ := addIncoming_ok st2 target st.edges.length (by rw [hlen2]; exact ht)
  obtain ⟨he2, ho2, hi2⟩ := addOutgoing_spec h2
  obtain ⟨he3, hi3, ho3⟩ := addIncoming_spec h3
  have hedges : st3.edges =
      st.edges ++ [{ id := id, from_ := some source, to_ := some target, weight := weight }] := by
    rw [he3, he2]
  refine ⟨st3, ?_, ?_, ?_, ?_, ?_, ?_, ?_⟩
  · simp only [newEdgeBetween, h2, h3, bind, Except.bind, pure, Except.pure]
  · simp [getFrom, hedges]
  · simp [getTo, hedges]
  · simp [getWeight, hedges]
  · intro m
    rw [ho3, ho2]
    rfl
  · intro m
    rw [hi3, hi2]
    rfl
  · intro e he
    rw [hedges, List.getElem?_append_left he]

/-- C12 for a second edge from node 0 to node 1 of a store that already holds one: both
lists of the two nodes then hold the two parallel edges, the older one first. -/
theorem C12_edge_constructor_attaches_witness :
    ∃ st1, newEdgeBetween
        { nodes := [{ id := 0, incoming := [], outgoing := [0] },
                    { id := 1, incoming := [0], outgoing := [] }],
          edges := [{ id := 0, from_ := some 0, to_ := some 1, weight := 1 }] } 7 0 1 5 =
          .ok (st1, 1) ∧
      getFrom st1 1 = some 0 ∧ getTo st1 1 = some 1 ∧ getWeight st1 1 = some 5 ∧
      getOutgoing st1 0 = [0, 1] ∧ getIncoming st1 1 = [0, 1] ∧
      getOutgoing st1 1 = [] ∧ getIncoming st1 0 = [] := by
  obtain ⟨st1, h, hf, ht, hw, ho, hi, -⟩ := C12_edge_constructor_attaches
    { nodes := [{ id := 0, incoming := [], outgoing := [0] },
                { id := 1, incoming := [0], outgoing := [] }],
      edges := [{ id := 0, from_ := some 0, to_ := some 1, weight := 1 }] } 7 0 1 5
    (by decide) (by decide)
  exact ⟨st1, h, hf, ht, hw, by rw [ho]; rfl, by rw [hi]; rfl, by rw [ho]; rfl, by rw [hi]; rfl⟩

/-! ### C11: `getIncident` -/

/-- What the scan of `getIncident` returns on a list of allocated edges. -/
theorem findIncident_spec (st : GraphStore) (other : NodeRef) :
    ∀ (es : List EdgeRef), (∀ e ∈ es, e < st.edges.length) →
      ∃ r, findIncident st other es = .ok r ∧
        (∀ e, r = some e ↔ ∃ pre post, es = pre ++ e :: post ∧ getTo st e = some other ∧
          ∀ x ∈ pre, getTo st x ≠ some other) ∧
        (r = none ↔ ∀ x ∈ es, getTo st x ≠ some other) := by
  intro es
  induction es with
  | nil =>
    intro _
    refine ⟨none, rfl, fun e => ⟨fun h => (by cases h), ?_⟩, ⟨fun _ x hx => (by cases hx), fun _ => rfl⟩⟩
    rintro ⟨pre, post, h, -⟩
    cases pre <;> cases h
  | cons a es ih =>
    intro hall
    have ha : a < st.edges.length := hall a (List.mem_cons_self _ _)
    obtain ⟨r, hr, hsome, hnone⟩ := ih (fun e he => hall e (List.mem_cons_of_mem _ he))
    have hget : st.edges[a]? = some st.edges[a] := List.getElem?_eq_getElem ha
    have hto : getTo st a = st.edges[a].to_ := by simp [getTo, hget]
    by_cases hm : st.edges[a].to_ = some other
    · refine ⟨some a, ?_, fun e => ⟨?_, ?_⟩, ⟨fun h => (by cases h), fun h => ?_⟩⟩
      · simp [findIncident, hget, deref, hm, bind, Except.bind, pure, Except.pure]
      · intro h
        cases h
        exact ⟨[], es, rfl, hto.trans hm, fun x hx => by cases hx⟩
      · rintro ⟨pre, post, h, hte, hpre⟩
        cases pre with
        | nil =>
          simp only [List.nil_append, List.cons.injEq] at h
          rw [h.1]
        | cons b pre =>
          simp only [List.cons_append, List.cons.injEq] at h
          exact absurd (hto.trans hm) (h.1 ▸ hpre b (List.mem_cons_self _ _))
      · exact absurd (hto.trans hm) (h a (List.mem_cons_self _ _))
    · have hna : getTo st a ≠ some other := fun h => hm (hto.symm.trans h)
      refine ⟨r, ?_, fun e => ⟨?_, ?_⟩, ⟨fun h => ?_, fun h => ?_⟩⟩
      · simp [findIncident, hget, deref, hm, bind, Except.bind, pure, Except.pure, hr]
      · intro h
        obtain ⟨pre, post, hes, hte, hpre⟩ := (hsome e).1 h
        refine ⟨a :: pre, post, by rw [hes]; rfl, hte, ?_⟩
        intro x hx
        rcases List.mem_cons.1 hx with hx | hx
        · rw [hx]; exact hna
        · exact hpre x hx
      · rintro ⟨pre, post, h, hte, hpre⟩
        cases pre with
        | nil =>
          simp only [List.nil_append, List.cons.injEq] at h
          exact absurd (h.1 ▸ hte) hna
        | cons b pre =>
          simp only [List.cons_append, List.cons.injEq] at h
          exact (hsome e).2 ⟨pre, post, h.2, hte, fun x hx => hpre x (List.mem_cons_of_mem _ hx)⟩
      · intro x hx
        rcases List.mem_cons.1 hx with hx | hx
        · rw [hx]; exact hna
        · exact hnone.1 h x hx
      · exact hnone.2 (fun x hx => h x (List.mem_cons_of_mem _ hx))

/-- One call keeps the edges allocated and attaches allocated edges only. -/
theorem applyOp_allocated {st st1 : GraphStore} {op : GraphOp} (h : applyOp st op = .ok st1) :
    st.edges.length ≤ st1.edges.length ∧
      ∀ p ∈ sourceEvents st.edges.length [op], p.1 < st1.edges.length := by
  cases op with
  | newNode id =>
    simp only [applyOp, pure, Except.pure, Except.ok.injEq] at h
    subst h
    exact ⟨le_refl _, fun p hp => by simp [sourceEvents] at hp⟩
  | newEdge id w =>
    simp only [applyOp, pure, Except.pure, Except.ok.injEq] at h
    subst h
    exact ⟨by simp [newEdge], fun p hp => by simp [sourceEvents] at hp⟩
  | newEdgeBetween id source target weight =>
    simp only [applyOp] at h
    obtain ⟨r, hr, h⟩ := bind_eq_ok.1 h
    simp only [pure, Except.pure, Except.ok.injEq] at h
    subst h
    unfold newEdgeBetween at hr
    obtain ⟨st2, h2, hr⟩ := bind_eq_ok.1 hr
    obtain ⟨st3, h3, hr⟩ := bind_eq_ok.1 hr
    simp only [pure, Except.pure, Except.ok.injEq] at hr
    subst hr
    have he : st3.edges.length = st.edges.length + 1 := by
      rw [(addIncoming_spec h3).1, (addOutgoing_spec h2).1]
      simp
    refine ⟨by simp only [he]; omega, fun p hp => ?_⟩
    simp only [sourceEvents, List.mem_singleton] at hp
    subst hp
    show st.edges.length < st3.edges.length
    rw [he]
    omega
  | setFrom edge node =>
    simp only [applyOp] at h
    unfold setFrom at h
    obtain ⟨ed, hed, h⟩ := bind_eq_ok.1 h
    rw [deref_eq_ok] at hed
    have he : st1.edges.length = st.edges.length := by
      rw [(addOutgoing_spec h).1]
      simp
    refine ⟨by rw [he], fun p hp => ?_⟩
    simp only [sourceEvents, List.mem_singleton] at hp
    subst hp
    rw [he]
    exact (List.getElem?_eq_some.1 hed).1
  | setTo edge node =>
    simp only [applyOp] at h
    unfold setTo at h
    obtain ⟨ed, hed, h⟩ := bind_eq_ok.1 h
    have he : st1.edges.length = st.edges.length := by
      rw [(addIncoming_spec h).1]
      simp
    exact ⟨by rw [he], fun p hp => by simp [sourceEvents] at hp⟩

/-- Every edge that a run of calls attaches on the source side is allocated at the end. -/
theorem run_allocated :
    ∀ (ops : List GraphOp) (st st1 : GraphStore), run st ops = .ok st1 →
      st.edges.length ≤ st1.edges.length ∧
        ∀ p ∈ sourceEvents st.edges.length ops, p.1 < st1.edges.length := by
  intro ops
  induction ops with
  | nil =>
    intro st st1 h
    simp only [run, pure, Except.pure, Except.ok.injEq] at h
    subst h
    exact ⟨le_refl _, fun p hp => by simp [sourceEvents] at hp⟩
  | cons op ops ih =>
    intro st st1 h
    simp only [run] at h
    obtain ⟨st2, h2, h⟩ := bind_eq_ok.1 h
    obtain ⟨hle2, hev2⟩ := applyOp_allocated h2
    obtain ⟨hle, hev⟩ := ih st2 st1 h
    refine ⟨le_trans hle2 hle, fun p hp => ?_⟩
    rw [(applyOp_spec h2).2.2.1 ops] at hp
    rcases List.mem_append.1 hp with hp | hp
    · exact lt_of_lt_of_le (hev2 p hp) hle
    · exact hev p hp

/-- C11: in a store built by constructor and setter calls, `getIncident(other)` on a
node returns the first entry of the outgoing list of that node, in insertion order, whose
`getTo` is `other`; it returns null exactly when no entry of that list has `getTo` equal
to `other`; and the store, hence every adjacency list, is the same after the call. -/
theorem C11_getIncident_first_match (ops : List GraphOp) (st : GraphStore)
    (node other : NodeRef) (hrun : run GraphStore.empty ops = .ok st)
    (hnode : node < st.nodes.length) :
    ∃ r, getIncident st node other = .ok (r, st) ∧
      (∀ e, r = some e ↔ ∃ pre post, getOutgoing st node = pre ++ e :: post ∧
        getTo st e = some other ∧ ∀ x ∈ pre, getTo st x ≠ some other) ∧
      (r = none ↔ ∀ x ∈ getOutgoing st node, getTo st x ≠ some other) := by
  have hget : st.nodes[node]? = some st.nodes[node] := List.getElem?_eq_getElem hnode
  have hout : getOutgoing st node = st.nodes[node].outgoing := by simp [getOutgoing, hget]
  have hall : ∀ e ∈ st.nodes[node].outgoing, e < st.edges.length := by
    intro e he
    rw [← hout, (run_adjacency ops _ _ hrun).1 node] at he
    simp only [getOutgoing, GraphStore.empty, List.getElem?_nil, List.nil_append] at he
    simp only [attachedTo, List.mem_filterMap] at he
    obtain ⟨p, hp, hpe⟩ := he
    have := (run_allocated ops _ _ hrun).2 p hp
    by_cases hpn : p.2 = node
    · simp only [hpn, if_true, Option.some.injEq] at hpe
      rw [← hpe]
      exact this
    · simp [hpn] at hpe
  obtain ⟨r, hr, hsome, hnone⟩ := findIncident_spec st other _ hall
  refine ⟨r, ?_, ?_, ?_⟩
  · simp only [getIncident, hget, deref, hr, bind, Except.bind, pure, Except.pure]
  · rw [hout]; exact hsome
  · rw [hout]; exact hnone

/-- C11 on the store of `rewireOps`, where edge 0 is in the outgoing lists of node 0 and of
node 2 and ends in node 1: asked for node 1, node 2 answers edge 0. -/
theorem C11_getIncident_first_match_witness :
    ∃ r, getIncident rewiredStore 2 1 = .ok (r, rewiredStore) ∧
      (∀ e, r = some e ↔ ∃ pre post, getOutgoing rewiredStore 2 = pre ++ e :: post ∧
        getTo rewiredStore e = some 1 ∧ ∀ x ∈ pre, getTo rewiredStore x ≠ some 1) ∧
      (r = none ↔ ∀ x ∈ getOutgoing rewiredStore 2, getTo rewiredStore x ≠ some 1) :=
  C11_getIncident_first_match rewireOps rewiredStore 2 1 (by decide) (by decide)

/-! ### What the fringe operations leave alone, on any state -/

theorem agree_setData_links {s : FringeSearch} {n : NodeRef} {d d1 : FringeSearchData}
    (hd : s.data n = some d) (hp : payload d1 = payload d) :
    Agree payload s (s.setData n d1) := by
  intro z
  by_cases hz : z = n
  · subst hz
    simp [FringeSearch.setData, hd, hp]
  · simp [FringeSearch.setData, hz]

theorem unlinkBefore_payload {s s1 : FringeSearch} {node : NodeRef}
    (h : unlinkBefore s node = .ok s1) : Agree payload s s1 := by
  unfold unlinkBefore at h
  obtain ⟨d, -, h⟩ := bind_eq_ok.1 h
  split at h
  · cases h; exact agree_refl _ _
  · split at h
    · cases h; exact agree_refl _ _
    · obtain ⟨pd, hpd, h⟩ := bind_eq_ok.1 h
      cases h
      exact agree_setData_links (get_eq_ok.1 hpd) rfl

theorem unlinkAfter_payload {s s1 : FringeSearch} {node : NodeRef}
    (h : unlinkAfter s node = .ok s1) : Agree payload s s1 := by
  unfold unlinkAfter at h
  obtain ⟨d, -, h⟩ := bind_eq_ok.1 h
  split at h
  · cases h; exact agree_refl _ _
  · split at h
    · cases h; exact agree_refl _ _
    · obtain ⟨pd, hpd, h⟩ := bind_eq_ok.1 h
      cases h
      exact agree_setData_links (get_eq_ok.1 hpd) rfl

theorem removeFromFringe_payload {s s1 : FringeSearch} {node : NodeRef}
    (h : removeFromFringe s node = .ok s1) : Agree payload s s1 := by
  unfold removeFromFringe at h
  obtain ⟨s2, h2, h⟩ := bind_eq_ok.1 h
  exact agree_trans (unlinkBefore_payload h2) (unlinkAfter_payload h)

theorem appendToFringe_payload {s s1 : FringeSearch} {child : NodeRef}
    (h : appendToFringe s child = .ok s1) : Agree payload s s1 := by
  unfold appendToFringe at h
  obtain ⟨s2, h2, h⟩ := bind_eq_ok.1 h
  obtain ⟨cd, hcd, h⟩ := bind_eq_ok.1 h
  have h2b : Agree payload s s2 := by
    unfold linkAfterEnd at h2
    split at h2
    · cases h2; exact agree_refl _ _
    · obtain ⟨fd, hfd, h2⟩ := bind_eq_ok.1 h2
      cases h2
      exact agree_setData_links (get_eq_ok.1 hfd) rfl
  cases h
  refine agree_trans h2b ?_
  exact @agree_setData_links s2 child cd
    { cd with fringePrevious := s2.fringeEnd, fringeNext := none } (get_eq_ok.1 hcd) rfl

/-- What one iteration of the loop over the outgoing edges does to the search data, the two
fringe links apart, on any state: nothing when the child is skipped; otherwise the child
carries the data that lines 57 to 68 left, with `previous` and `g` overwritten, and every
other node keeps what it had. -/
theorem expandEdge_payload {G : Graph} {s s1 : FringeSearch} {current child : NodeRef}
    {edge : BaseFringeEdge} {cd : FringeSearchData} (hcd : s.data current = some cd)
    (hto : edge.to_ = some child) (h : expandEdge G s current edge = .ok s1) :
    (considerChild s child (cd.g + G.calculateWeight edge cd.g) = none ∧ s1 = s) ∨
      ∃ s0 chd, considerChild s child (cd.g + G.calculateWeight edge cd.g) = some s0 ∧
        s0.data child = some chd ∧
        (s1.data child).map payload =
          some (some current, cd.g + G.calculateWeight edge cd.g, chd.h, chd.searchID) ∧
        ∀ z, z ≠ child → (s1.data z).map payload = (s0.data z).map payload := by
  unfold expandEdge at h
  obtain ⟨cd1, hcd1, h⟩ := bind_eq_ok.1 h
  rw [get_eq_ok, hcd] at hcd1
  cases hcd1
  obtain ⟨child1, hch, h⟩ := bind_eq_ok.1 h
  rw [hto, deref_eq_ok] at hch
  cases hch
  split at h
  · rename_i hcons
    cases h
    exact Or.inl ⟨hcons, rfl⟩
  · rename_i s0 hcons
    obtain ⟨chd, hchd, h⟩ := bind_eq_ok.1 h
    obtain ⟨s3, h3, h⟩ := bind_eq_ok.1 h
    have hA := agree_trans (removeFromFringe_payload h3) (appendToFringe_payload h)
    refine Or.inr ⟨s0, chd, hcons, get_eq_ok.1 hchd, ?_, ?_⟩
    · rw [hA child]
      simp [FringeSearch.setData, payload]
    · intro z hz
      rw [hA z]
      simp [FringeSearch.setData, hz]

/-- In `floatGraph` an iteration of the loop over the outgoing edges compares and stores the
float sum of the cost of the expanded node and the weight of the edge. -/
theorem expandEdge_floatGraph (out : NodeRef → List BaseFringeEdge) {s s1 : FringeSearch}
    {current child : NodeRef} {edge : BaseFringeEdge} {cd : FringeSearchData}
    (hcd : s.data current = some cd) (hto : edge.to_ = some child)
    (h : expandEdge (floatGraph out) s current edge = .ok s1) :
    (considerChild s child (fadd cd.g edge.weight) = none ∧ s1 = s) ∨
      ∃ s0 chd, considerChild s child (fadd cd.g edge.weight) = some s0 ∧
        s0.data child = some chd ∧
        (s1.data child).map payload =
          some (some current, fadd cd.g edge.weight, chd.h, chd.searchID) ∧
        ∀ z, z ≠ child → (s1.data z).map payload = (s0.data z).map payload := by
  have hp := expandEdge_payload hcd hto h
  rw [floatGraph_sum] at hp
  exact hp

/-! ### C15: when the search data of a child is initialised again -/

/-- C15: at lines 57 to 68 a child without search data, or with data of another
generation, gets the data predecessor none, g = 0, h = -1 (not computed), both links
none, tag = current generation, and this changes the data of no other node and no field
of the engine; a child with data of the current generation keeps its data untouched there
(it is skipped or goes on as it is).  The write of `previous` and `g` comes after: when
the iteration is over a child that was initialised again has h = -1, the current tag, the
expanded node as predecessor and the new g, while a child of the current generation that
was not skipped still has its cached h. -/
theorem C15_child_data_initialised_once (G : Graph) (s : FringeSearch) (current child : NodeRef)
    (edge : BaseFringeEdge) (cd : FringeSearchData) (g : edge_weight_t) :
    ((∀ d, s.data child = some d → d.searchID ≠ s.searchID) →
        considerChild s child g = some (allocateSearchData s child)) ∧
      ((allocateSearchData s child).data child =
          some { previous := none, g := 0, h := -1, fringeNext := none, fringePrevious := none,
                 searchID := s.searchID } ∧
        (∀ z, z ≠ child → (allocateSearchData s child).data z = s.data z) ∧
        (allocateSearchData s child).searchID = s.searchID ∧
        (allocateSearchData s child).start = s.start ∧
        (allocateSearchData s child).fringeStart = s.fringeStart ∧
        (allocateSearchData s child).fringeEnd = s.fringeEnd) ∧
      (∀ d, s.data child = some d → d.searchID = s.searchID →
        considerChild s child g = if g > d.g then none else some s) ∧
      (∀ s1, s.data current = some cd → edge.to_ = some child →
        expandEdge G s current edge = .ok s1 →
        ((∀ d, s.data child = some d → d.searchID ≠ s.searchID) →
          (s1.data child).map payload =
            some (some current, cd.g + G.calculateWeight edge cd.g, -1, s.searchID)) ∧
        (∀ d, s.data child = some d → d.searchID = s.searchID →
          ¬ (cd.g + G.calculateWeight edge cd.g > d.g) →
          (s1.data child).map payload =
            some (some current, cd.g + G.calculateWeight edge cd.g, d.h, s.searchID))) := by
  have hstale : ∀ g0, (∀ d, s.data child = some d → d.searchID ≠ s.searchID) →
      considerChild s child g0 = some (allocateSearchData s child) := by
    intro g0 hst
    unfold considerChild
    cases hd : s.data child with
    | none => rfl
    | some d => simp [hst d hd]
  have hcur : ∀ g0 d, s.data child = some d → d.searchID = s.searchID →
      considerChild s child g0 = if g0 > d.g then none else some s := by
    intro g0 d hd ht
    unfold considerChild
    simp [hd, ht]
  have hfresh : (allocateSearchData s child).data child =
      some { previous := none, g := 0, h := -1, fringeNext := none, fringePrevious := none,
             searchID := s.searchID } := by
    simp [allocateSearchData, FringeSearch.setData]
  refine ⟨hstale g, ⟨hfresh, ?_, rfl, rfl, rfl, rfl⟩, hcur g, ?_⟩
  · intro z hz
    simp [allocateSearchData, FringeSearch.setData, hz]
  · intro s1 hcd hto h
    refine ⟨fun hst => ?_, fun d hd ht hng => ?_⟩
    · rcases expandEdge_payload hcd hto h with ⟨hnone, -⟩ | ⟨s0, chd, hcons, hchd, hp, -⟩
      · rw [hstale _ hst] at hnone
        cases hnone
      · rw [hstale _ hst] at hcons
        cases hcons
        rw [hfresh] at hchd
        cases hchd
        exact hp
    · rcases expandEdge_payload hcd hto h with ⟨hnone, -⟩ | ⟨s0, chd, hcons, hchd, hp, -⟩
      · rw [hcur _ d hd ht, if_neg hng] at hnone
        cases hnone
      · rw [hcur _ d hd ht, if_neg hng] at hcons
        cases hcons
        rw [hd] at hchd
        cases hchd
        rw [hp, ht]

/-- C15 on the first expansion in `oneEdgeGraph`: node 1 has no search data, so it is
initialised, and after the iteration it has predecessor 0, g = 1, h = -1 and the tag 0. -/
theorem C15_child_data_initialised_once_witness :
    considerChild (FringeSearch.bound 0 noData 0) 1 1 =
        some (allocateSearchData (FringeSearch.bound 0 noData 0) 1) ∧
      ((afterEdge oneEdgeGraph (FringeSearch.bound 0 noData 0) 0 (edgeOf 0 1 1)).data 1).map
        payload = some (some 0, 1, -1, 0) :=
  ⟨(C15_child_data_initialised_once oneEdgeGraph (FringeSearch.bound 0 noData 0) 0 1
      (edgeOf 0 1 1)
      { previous := none, g := 0, h := -1, fringeNext := none, fringePrevious := none,
        searchID := 0 } 1).1
      (fun d hd => by simp [FringeSearch.bound, setStartingNode, allocateSearchData,
        FringeSearch.setData, noData] at hd),
    ((C15_child_data_initialised_once oneEdgeGraph (FringeSearch.bound 0 noData 0) 0 1
      (edgeOf 0 1 1)
      { previous := none, g := 0, h := -1, fringeNext := none, fringePrevious := none,
        searchID := 0 } 1).2.2.2
      (afterEdge oneEdgeGraph (FringeSearch.bound 0 noData 0) 0 (edgeOf 0 1 1)) rfl rfl
      rfl).1
      (fun d hd => by simp [FringeSearch.bound, setStartingNode, allocateSearchData,
        FringeSearch.setData, noData] at hd)⟩

/-- C14 on an engine that has searched `oneEdgeGraph` from node 0 to node 1: after
`reset(1)` with the counter at 5 node 1 is the only fringe node and carries fresh data with
tag 5, and node 0 still has the data of the old search. -/
theorem C14_reset_frame_witness :
    (reset (stateAfter 3 oneEdgeGraph (FringeSearch.bound 0 noData 0) 1) 5 1).1.fringeStart =
        some 1 ∧
      (reset (stateAfter 3 oneEdgeGraph (FringeSearch.bound 0 noData 0) 1) 5 1).1.data 1 =
        some { previous := none, g := 0, h := -1, fringeNext := none, fringePrevious := none,
               searchID := 5 } ∧
      (reset (stateAfter 3 oneEdgeGraph (FringeSearch.bound 0 noData 0) 1) 5 1).1.data 0 =
        (stateAfter 3 oneEdgeGraph (FringeSearch.bound 0 noData 0) 1).data 0 :=
  ⟨(C14_reset_frame _ 5 1).2.2.2.1, (C14_reset_frame _ 5 1).2.2.2.2.2.1,
    (C14_reset_frame _ 5 1).2.2.2.2.2.2 0 (by decide)⟩

/-! ### C16: `removeFromFringe` -/

theorem setStartingNode_fringe (s : FringeSearch) (start : NodeRef)
    (hfresh : ∀ n d, n ≠ start → s.data n = some d → d.searchID ≠ s.searchID) :
    FringeIs (setStartingNode s start) [start] := by
  have hd := setStartingNode_data_start s start
  have hother : ∀ n, n ≠ start → (setStartingNode s start).data n = s.data n := by
    intro n hn
    simp [setStartingNode, allocateSearchData, FringeSearch.setData, hn]
  have hsid : (setStartingNode s start).searchID = s.searchID := rfl
  refine ⟨List.nodup_singleton _, rfl, rfl, ?_, ?_⟩
  · intro i x hx
    cases i with
    | zero =>
      simp at hx
      subst hx
      exact ⟨_, hd, rfl, by simp, by simp⟩
    | succ i => simp at hx
  · intro x d hx ht hxL _
    have hxs : x ≠ start := by simpa using hxL
    rw [hother x hxs] at hx
    exact absurd (ht.trans hsid) (hfresh x d hxs hx)

/-- The fringe of `fanState` is the list 0, 1, 2. -/
theorem fanState_fringe : FringeIs fanState [0, 1, 2] := by
  have h0 : FringeIs (FringeSearch.bound 0 noData 0) [0] :=
    setStartingNode_fringe _ 0 (fun n d _ hd => by simp [noData] at hd)
  have h1 : expandEdge fanGraph (FringeSearch.bound 0 noData 0) 0 (edgeOf 0 1 1) =
      .ok (afterEdge fanGraph (FringeSearch.bound 0 noData 0) 0 (edgeOf 0 1 1)) := rfl
  have hF1 : FringeIs (afterEdge fanGraph (FringeSearch.bound 0 noData 0) 0 (edgeOf 0 1 1))
      [0, 1] := by
    rcases expandEdge_spec h0 (by simp) (by decide) h1 with h | ⟨child, dc, hto, -, hF, -⟩
    · have := congrArg FringeSearch.fringeEnd h
      exact absurd this (by decide)
    · cases hto
      exact hF
  have h2 : expandEdge fanGraph
      (afterEdge fanGraph (FringeSearch.bound 0 noData 0) 0 (edgeOf 0 1 1)) 0 (edgeOf 0 2 1) =
      .ok fanState := rfl
  rcases expandEdge_spec hF1 (by simp) (by decide) h2 with h | ⟨child, dc, hto, -, hF, -⟩
  · have := congrArg FringeSearch.fringeEnd h
    exact absurd this (by decide)
  · cases hto
    exact hF

/-- C16: on a state whose fringe is the well-formed list `L`, `removeFromFringe(x)` for a
node `x` of `L`, wherever it stands, returns and leaves the well-formed list of the other
nodes of `L` in their order (head and tail pointer are its first and last node, every
link between neighbours is patched) and changes nothing but links, the two links of `x`
itself being left as they were; for a node outside `L` with search data whose two links
are null the call changes nothing at all. -/
theorem C16_removeFromFringe_unlinks (s : FringeSearch) (L : List NodeRef) (x : NodeRef)
    (hF : FringeIs s L) :
    (x ∈ L → ∃ s2, removeFromFringe s x = .ok s2 ∧ FringeIsBut s2 (L.erase x) (some x) ∧
        s2.fringeStart = (L.erase x).head? ∧ s2.fringeEnd = (L.erase x).getLast? ∧
        s2.data x = s.data x ∧ Agree payload s s2 ∧ SameBinding s s2) ∧
      (∀ dx, x ∉ L → s.data x = some dx → dx.fringeNext = none → dx.fringePrevious = none →
        removeFromFringe s x = .ok s) := by
  refine ⟨fun hx => ?_, fun dx hx hdx hn hp => ?_⟩
  · obtain ⟨k, hk, hkx⟩ := List.getElem_of_mem hx
    have hk2 : L[k]? = some x := by rw [List.getElem?_eq_getElem hk, hkx]
    obtain ⟨s2, h, hF2, hd, hB, hA⟩ := removeFromFringe_member hF hk2
    rw [eraseIdx_eq_erase hF.1 hk2] at hF2
    exact ⟨s2, h, hF2, hF2.2.1, hF2.2.2.1, hd, hA, hB⟩
  · exact removeFromFringe_nonmember hF.2.1 hF.2.2.1 hx hdx hn hp

/-- C16 for the middle node 1 of the fringe 0, 1, 2 of `fanState`: the fringe left is
0, 2. -/
theorem C16_removeFromFringe_unlinks_witness :
    ∃ s2, removeFromFringe fanState 1 = .ok s2 ∧ FringeIsBut s2 [0, 2] (some 1) ∧
      s2.fringeStart = some 0 ∧ s2.fringeEnd = some 2 ∧
      s2.data 1 = fanState.data 1 ∧ Agree payload fanState s2 ∧ SameBinding fanState s2 :=
  (C16_removeFromFringe_unlinks fanState [0, 1, 2] 1 fanState_fringe).1 (by decide)

/-! ### C17: when a child with data of the current generation is skipped -/

/-- C17 at a failing input: in `tieState` node 3 has data of the current generation with
g = 2 and predecessor 1, and the edge from node 2 (g = 1) of weight 1 gives the same cost
2, so the stored g is not above the new cost; the iteration does not skip node 3 but makes
node 2 its predecessor, and the path returned for the target 3 runs through node 2. -/
theorem C17_equal_cost_child_not_skipped :
    tagOf tieState 3 = some tieState.searchID ∧ gOf tieState 3 = 2 ∧
      gOf tieState 2 + (edgeOf 2 3 1).weight = 2 ∧ predecessor tieState 3 = some 1 ∧
      (∃ s1, expandEdge diamondGraph tieState 2 (edgeOf 2 3 1) = .ok s1 ∧
        predecessor s1 3 = some 2) ∧
      ∀ n : Nat,
        searchResult (10 + n) diamondGraph (FringeSearch.bound 0 noData 0) 3 =
          .ok (some [3, 2]) :=
  ⟨by decide!, by decide!, by decide!, by decide!,
    ⟨afterEdge diamondGraph tieState 2 (edgeOf 2 3 1), rfl, by decide!⟩,
    fun n => searchResult_mono_add (by decide!) n⟩

/-! ### C18 and C19: the fringe after a zero-weight loop at the only fringe node -/

/-- A state whose head pointer is null and whose tail pointer is not has no well-formed
fringe. -/
theorem not_fringeIs_of_head_null {s : FringeSearch} {t : NodeRef}
    (hs : s.fringeStart = none) (he : s.fringeEnd = some t) : ∀ L, ¬ FringeIs s L := by
  intro L hF
  have hL : L = [] := by
    have := hF.2.1
    rw [hs] at this
    cases L with
    | nil => rfl
    | cons a L => cases this
  have := hF.2.2.1
  rw [he, hL] at this
  cases this

/-- C18 at a failing input: in `startLoopGraph` the fringe of a freshly bound engine is the
well-formed list of the single node 0, and node 0 has a loop of weight 0 and an edge of
weight 1 to node 1.  Expanding node 0 returns, gives node 1 the predecessor 0 and g = 1
and names node 1 as the next node to scan, but the fringe it leaves is not the list with
the single node 1: the head pointer is null while the tail pointer is node 1, so the
fringe is no well-formed list at all. -/
theorem C18_expansion_with_zero_loop_loses_fringe_head :
    NonNegWeights startLoopGraph ∧
      FringeIs (FringeSearch.bound 0 noData 0) [0] ∧
      expandCurrent startLoopGraph (FringeSearch.bound 0 noData 0) 0 =
        .ok (some 1, afterExpand startLoopGraph (FringeSearch.bound 0 noData 0) 0) ∧
      predecessor (afterExpand startLoopGraph (FringeSearch.bound 0 noData 0) 0) 1 = some 0 ∧
      gOf (afterExpand startLoopGraph (FringeSearch.bound 0 noData 0) 0) 1 = 1 ∧
      (afterExpand startLoopGraph (FringeSearch.bound 0 noData 0) 0).fringeStart = none ∧
      (afterExpand startLoopGraph (FringeSearch.bound 0 noData 0) 0).fringeEnd = some 1 ∧
      ∀ L, ¬ FringeIs (afterExpand startLoopGraph (FringeSearch.bound 0 noData 0) 0) L := by
  refine ⟨nonNeg_edgesOf _ (by decide),
    setStartingNode_fringe _ 0 (fun n d _ hd => by simp [noData] at hd), rfl, by decide!,
    by decide!, by decide!, by decide!, ?_⟩
  exact not_fringeIs_of_head_null (t := 1) (by decide!) (by decide!)

/-- C19 at a failing input: `startLoopGraph` has non-negative weights and a freshly bound
engine has the well-formed fringe of the single node 0, yet the state that `search(1)`
leaves has a null head pointer and node 1 as tail pointer, with any amount of fuel from 3
on: head and tail are not null together, and no list is the fringe of that state. -/
theorem C19_fringe_head_null_tail_set_after_search :
    NonNegWeights startLoopGraph ∧
      FringeIs (FringeSearch.bound 0 noData 0) [0] ∧
      ∀ n : Nat,
        (∃ r, search (3 + n) startLoopGraph (FringeSearch.bound 0 noData 0) 1 = .ok r) ∧
        (stateAfter (3 + n) startLoopGraph (FringeSearch.bound 0 noData 0) 1).fringeStart =
          none ∧
        (stateAfter (3 + n) startLoopGraph (FringeSearch.bound 0 noData 0) 1).fringeEnd =
          some 1 ∧
        ∀ L, ¬ FringeIs (stateAfter (3 + n) startLoopGraph (FringeSearch.bound 0 noData 0) 1) L := by
  refine ⟨nonNeg_edgesOf _ (by decide),
    setStartingNode_fringe _ 0 (fun n d _ hd => by simp [noData] at hd), fun n => ?_⟩
  have h3 : search 3 startLoopGraph (FringeSearch.bound 0 noData 0) 1 =
      .ok (none, stateAfter 3 startLoopGraph (FringeSearch.bound 0 noData 0) 1) := rfl
  have hn := search_mono_add h3 n
  have hst : stateAfter (3 + n) startLoopGraph (FringeSearch.bound 0 noData 0) 1 =
      stateAfter 3 startLoopGraph (FringeSearch.bound 0 noData 0) 1 := by
    unfold stateAfter
    rw [hn, h3]
  rw [hst]
  exact ⟨⟨_, hn⟩, by decide!, by decide!,
    not_fringeIs_of_head_null (t := 1) (by decide!) (by decide!)⟩

/-! ### C20: the threshold of the next pass -/

/-- C21 at a failing input: the bound constructor leaves `searchID` at whatever the member
held (`uninit`), whatever the counter and the earlier bindings are.  With 0 there twice,
an engine bound to node 0 of `twoSourcesGraph` runs `search(1)`, and a second engine is
then bound to node 2 by the bound constructor: it has the id of the first, the data that
the first engine wrote into node 1 carries its current tag with g = 1, and its
`search(1)` returns the null result, where the same engine with an id of its own
returns [1]. -/
theorem C21_bound_constructor_repeats_generation_id :
    (∀ (uninit : Nat) (data : NodeRef → Option FringeSearchData) (start : NodeRef),
        (FringeSearch.bound uninit data start).searchID = uninit) ∧
      (FringeSearch.bound 0
          (stateAfter 5 twoSourcesGraph (FringeSearch.bound 0 noData 0) 1).data 2).searchID =
        (FringeSearch.bound 0 noData 0).searchID ∧
      tagOf (stateAfter 5 twoSourcesGraph (FringeSearch.bound 0 noData 0) 1) 1 =
        some (FringeSearch.bound 0 noData 0).searchID ∧
      tagOf
          (FringeSearch.bound 0
            (stateAfter 5 twoSourcesGraph (FringeSearch.bound 0 noData 0) 1).data 2) 1 =
        some (FringeSearch.bound 0
          (stateAfter 5 twoSourcesGraph (FringeSearch.bound 0 noData 0) 1).data 2).searchID ∧
      gOf
          (FringeSearch.bound 0
            (stateAfter 5 twoSourcesGraph (FringeSearch.bound 0 noData 0) 1).data 2) 1 = 1 ∧
      ∀ n : Nat,
        searchResult (3 + n) twoSourcesGraph
            (FringeSearch.bound 0
              (stateAfter 5 twoSourcesGraph (FringeSearch.bound 0 noData 0) 1).data 2) 1 =
          .ok none ∧
        searchResult (5 + n) twoSourcesGraph
            (FringeSearch.bound 1
              (stateAfter 5 twoSourcesGraph (FringeSearch.bound 0 noData 0) 1).data 2) 1 =
          .ok (some [1]) := by
  refine ⟨fun _ _ _ => rfl, rfl, by decide!, by decide!, by decide!, fun n => ?_⟩
  exact ⟨searchResult_mono_add (by decide!) n, searchResult_mono_add (by decide!) n⟩

/-! ### C22: the returned nodes and the reported cost -/

/-- The weight of an edge of `edgesOf l` from `n` to `t`, when all such triples of `l` agree
on it. -/
theorem weight_of_mem_edgesOf (l : List (NodeRef × NodeRef × edge_weight_t))
    (n t : NodeRef) (w : edge_weight_t)
    (h : ∀ x ∈ l, x.1 = n → x.2.1 = t → x.2.2 = w) :
    ∀ e ∈ edgesOf l n, e.to_ = some t → e.weight = w := by
  intro e he ht
  simp only [edgesOf, List.mem_map, List.mem_filter, decide_eq_true_eq] at he
  obtain ⟨x, ⟨hx, hn⟩, rfl⟩ := he
  simp only [Option.some.injEq] at ht
  exact h x hx hn ht

/-- C22 at a failing input: `staleCostGraph` has non-negative weights; `search(4)` on an
engine freshly bound to node 0 returns [4, 2, 3], with any amount of fuel from 6 on, and
`cost(4)` is 11.  The nodes do form the walk 0 → 3 → 2 → 4, but every choice of edges
along it has the total weight 3. -/
theorem C22_cost_differs_from_weight_of_returned_walk :
    NonNegWeights staleCostGraph ∧
      (∀ n : Nat,
        searchResult (6 + n) staleCostGraph (FringeSearch.bound 0 noData 0) 4 =
          .ok (some [4, 2, 3]) ∧
        costAfterSearch (6 + n) staleCostGraph (FringeSearch.bound 0 noData 0) 4 4 = .ok 11) ∧
      IsWalk staleCostGraph 0 [edgeOf 0 3 1, edgeOf 3 2 1, edgeOf 2 4 1] 4 ∧
      ∀ e1 e2 e3 : BaseFringeEdge,
        e1 ∈ staleCostGraph.getOutgoing 0 → e1.to_ = some 3 →
        e2 ∈ staleCostGraph.getOutgoing 3 → e2.to_ = some 2 →
        e3 ∈ staleCostGraph.getOutgoing 2 → e3.to_ = some 4 →
        walkWeight [e1, e2, e3] = 3 := by
  refine ⟨nonNeg_edgesOf _ (by decide), fun n => ?_, ?_, ?_⟩
  · exact ⟨searchResult_mono_add (by decide!) n, costAfterSearch_mono_add (by decide!) n⟩
  · exact ⟨by decide, 3, rfl, by decide, 2, rfl, by decide, 4, rfl, rfl⟩
  · intro e1 e2 e3 h1 t1 h2 t2 h3 t3
    have w1 := weight_of_mem_edgesOf _ 0 3 1 (by decide) e1 h1 t1
    have w2 := weight_of_mem_edgesOf _ 3 2 1 (by decide) e2 h2 t2
    have w3 := weight_of_mem_edgesOf _ 2 4 1 (by decide) e3 h3 t3
    simp only [walkWeight, List.map, List.sum_cons, List.sum_nil, w1, w2, w3]
    rfl

/-! ### C5 on an engine that has searched before -/

/-- C5, as stated, fails on an engine that has searched before: the engine bound to node 0
of `oneEdgeGraph` returns [1] for `search(1)`, which takes node 0 out of the fringe; it is
still bound to node 0, but `search(0)` then returns the null result, with any amount of
fuel from 3 on. -/
theorem C5_search_start_after_a_search_counterexample :
    searchResult 3 oneEdgeGraph (FringeSearch.bound 0 noData 0) 1 = .ok (some [1]) ∧
      (stateAfter 3 oneEdgeGraph (FringeSearch.bound 0 noData 0) 1).start = 0 ∧
      ∀ n : Nat,
        searchResult (3 + n) oneEdgeGraph
          (stateAfter 3 oneEdgeGraph (FringeSearch.bound 0 noData 0) 1) 0 = .ok none :=
  ⟨by decide!, by decide!, fun n => searchResult_mono_add (by decide!) n⟩

/-- The amended C5 on `oneEdgeGraph` with the engine bound to node 0 by the bound
constructor. -/
theorem C5_search_start_is_empty_path_witness :
    ∃ s1, search 2 oneEdgeGraph (FringeSearch.bound 0 noData 0) 0 = .ok (some [], s1) ∧
      cost s1 0 = .ok 0 :=
  C5_search_start_is_empty_path oneEdgeGraph
    { searchID := 0, fringeStart := none, fringeEnd := none, start := 0, data := noData } 0 0

end Fringe
